import Mathlib

/-!
Separate-chaining hash table (`src/hash_table.c`)

A shallow embedding of the fixed-bucket-count hash table of `hash_table.c`
and the properties its specification states about it.

Modelling decisions:

* A `void *` value is a natural number (`Ptr`); the null pointer is `NULL = 0`.
  The table never dereferences a value, it only stores and returns it.
* A key is an `unsigned int`; the table never does arithmetic on keys, so keys are
  natural numbers.
* A bucket chain (a `NULL`-terminated singly linked list of `HashTableEntry` nodes
  reached from `buckets[i]`) is the list of its nodes in link order; the `next`
  field of a node is the tail of the list after it.
* A pointer to a node of the table is an `EntryRef`: the bucket whose chain holds
  the node and the node's position in that chain.
* `buckets` is the array of chain heads: a list of chains. Indexing it outside its
  length is undefined behaviour in C; every operation returns `none` there.
* `malloc` is assumed to succeed and `free` has no effect that the table can
  observe, so neither is modelled.
* `createHashTable` calls `exit(1)` on a zero bucket count: it returns `none`.
-/

namespace HashTableModel

/-- A `void *`: the table stores and returns these without looking at them. -/
abbrev Ptr := Nat

/-- The null pointer, which the operations also return for "no value". -/
@[reducible] def NULL : Ptr := 0

/-- The node type `struct _HashTableEntry`; the `next` link is the rest of the chain. -/
structure HashTableEntry where
  key : Nat
  value : Ptr
deriving DecidableEq, Repr

/-- The type `struct _HashTable`: chain heads, hash function pointer, bucket count. -/
structure HashTable where
  buckets : List (List HashTableEntry)
  hash : Nat → Nat
  num_buckets : Nat

/-- A non-null `HashTableEntry *` into a table: bucket and position in its chain. -/
structure EntryRef where
  bucket : Nat
  pos : Nat
deriving DecidableEq, Repr

/-- The node an entry pointer points to (`none`: the pointer is dangling). -/
def deref (hashTable : HashTable) (p : EntryRef) : Option HashTableEntry :=
  match hashTable.buckets[p.bucket]? with
  | none => none
  | some chain => chain[p.pos]?

/-- The store `p->value = value` through an entry pointer. -/
def storeValue (hashTable : HashTable) (p : EntryRef) (value : Ptr) : HashTable :=
  match hashTable.buckets[p.bucket]? with
  | none => hashTable
  | some chain =>
    match chain[p.pos]? with
    | none => hashTable
    | some e =>
      { hashTable with
        buckets := hashTable.buckets.set p.bucket (chain.set p.pos { e with value := value }) }

/-- The function `createHashTableEntry(key, value)`: a fresh node, not yet linked. -/
def createHashTableEntry (key : Nat) (value : Ptr) : HashTableEntry :=
  { key := key, value := value }

/-- The loop of `findItem`, `while (tmp != NULL)`, started with `tmp` at position
`pos` and the nodes from there on: the position of the first node whose key is
`key`, or `none` when `tmp` runs off the end. -/
def findLoop (key : Nat) : List HashTableEntry → Nat → Option Nat
  | [], _ => none
  | tmp :: next, pos => if tmp.key = key then some pos else findLoop key next (pos + 1)

/-- The function `findItem(hashTable, key)`: outer `none` is an out-of-bounds read of
`buckets`, inner `none` is the `NULL` return. -/
def findItem (hashTable : HashTable) (key : Nat) : Option (Option EntryRef) :=
  let bucketInd := hashTable.hash key
  match hashTable.buckets[bucketInd]? with
  | none => none
  | some [] => some none
  | some (tmp :: next) =>
    match findLoop key (tmp :: next) 0 with
    | none => some none
    | some pos => some (some { bucket := bucketInd, pos := pos })

/-- The function `createHashTable(hashFunction, numBuckets)`; `none` is `exit(1)`. -/
def createHashTable (hashFunction : Nat → Nat) (numBuckets : Nat) : Option HashTable :=
  if numBuckets = 0 then none
  else some
    { hash := hashFunction
      num_buckets := numBuckets
      buckets := List.replicate numBuckets [] }

/-- The function `insertItem(hashTable, key, value)`: the returned pointer and the
table afterwards. -/
def insertItem (hashTable : HashTable) (key : Nat) (value : Ptr) :
    Option (Ptr × HashTable) :=
  match findItem hashTable key with
  | none => none
  | some (some newEntry) =>
    match deref hashTable newEntry with
    | none => none
    | some e => some (e.value, storeValue hashTable newEntry value)
  | some none =>
    let newE := createHashTableEntry key value
    let index := hashTable.hash key
    match hashTable.buckets[index]? with
    | none => none
    | some head =>
      some (NULL, { hashTable with buckets := hashTable.buckets.set index (newE :: head) })

/-- The function `getItem(hashTable, key)`. -/
def getItem (hashTable : HashTable) (key : Nat) : Option Ptr :=
  match findItem hashTable key with
  | none => none
  | some (some newEntry) =>
    match deref hashTable newEntry with
    | none => none
    | some e => some e.value
  | some none => some NULL

/-- The loop of `removeItem`, `while (curr && curr->key != key)`, with `curr` at
position `pos` and `prev` as given: the final `(prev, curr)`, each a position in
the chain or `none` for `NULL`. -/
def removeLoop (key : Nat) : List HashTableEntry → Option Nat → Nat → Option Nat × Option Nat
  | [], prev, _ => (prev, none)
  | curr :: next, prev, pos =>
    if curr.key ≠ key then removeLoop key next (some pos) (pos + 1) else (prev, some pos)

/-- Steps 3 to 5 of `removeItem`, reached when the head of the chain does not hold
the key: the search loop, the `if (!curr)` return, the unlink
`if (prev) prev->next = curr->next` and the return of the unlinked node's value.
Linking `prev` (position `p`) to the successor of `curr` (position `c`) leaves the
nodes up to `p` followed by the nodes after `c`. With `prev = NULL` nothing is
relinked; `removeItem` never gets there, as it tests the head before the loop. -/
def removeSearch (hashTable : HashTable) (bucketI : Nat) (chain : List HashTableEntry)
    (key : Nat) : Option (Ptr × HashTable) :=
  match removeLoop key chain none 0 with
  | (_, none) => some (NULL, hashTable)
  | (prev, some c) =>
    match chain[c]? with
    | none => none
    | some node =>
      match prev with
      | some p =>
        some (node.value,
          { hashTable with
            buckets := hashTable.buckets.set bucketI (chain.take (p + 1) ++ chain.drop (c + 1)) })
      | none => some (node.value, hashTable)

/-- The function `removeItem(hashTable, key)`: the returned pointer and the table
afterwards. -/
def removeItem (hashTable : HashTable) (key : Nat) : Option (Ptr × HashTable) :=
  let bucketI := hashTable.hash key
  match hashTable.buckets[bucketI]? with
  | none => none
  | some chain =>
    match chain with
    | curr :: next =>
      if curr.key = key then
        some (curr.value, { hashTable with buckets := hashTable.buckets.set bucketI next })
      else removeSearch hashTable bucketI chain key
    | [] => removeSearch hashTable bucketI chain key

/-- The function `deleteItem(hashTable, key)`: `removeItem`, then the returned value
is freed when it is not `NULL`; only the table afterwards is left. -/
def deleteItem (hashTable : HashTable) (key : Nat) : Option HashTable :=
  match removeItem hashTable key with
  | none => none
  | some (_, t) => some t

/-- The hash function of the test suite, `key % BUCKET_NUM` with `BUCKET_NUM = 3`. -/
def testHash (key : Nat) : Nat := key % 3

/-! ## Vocabulary of the properties -/

/-- The value of the first node of a chain whose key is `key`, if there is one. -/
def chainLookup (key : Nat) : List HashTableEntry → Option Ptr
  | [] => none
  | e :: rest => if e.key = key then some e.value else chainLookup key rest

/-- The chain with the value of its first node of key `key` replaced. -/
def chainUpdate (key : Nat) (value : Ptr) : List HashTableEntry → List HashTableEntry
  | [] => []
  | e :: rest =>
    if e.key = key then { e with value := value } :: rest
    else e :: chainUpdate key value rest

/-- The chain without its first node of key `key`. -/
def chainErase (key : Nat) : List HashTableEntry → List HashTableEntry
  | [] => []
  | e :: rest => if e.key = key then rest else e :: chainErase key rest

/-- The chain `insertItem` leaves in the key's bucket: the first node of that key
overwritten, or a new node linked in front when there is none. -/
def chainInsert (key : Nat) (value : Ptr) (chain : List HashTableEntry) :
    List HashTableEntry :=
  match chainLookup key chain with
  | none => createHashTableEntry key value :: chain
  | some _ => chainUpdate key value chain

/-- The chain of the bucket a key hashes to (empty when the index is out of range). -/
def bucketOf (t : HashTable) (key : Nat) : List HashTableEntry :=
  (t.buckets[t.hash key]?).getD []

/-- The array of chain heads has as many slots as `num_buckets` says. -/
def SlotsOk (t : HashTable) : Prop := t.buckets.length = t.num_buckets

/-- The table holds an entry for `key` whose value is `value`, in some bucket. -/
def HoldsEntry (t : HashTable) (key : Nat) (value : Ptr) : Prop :=
  ∃ chain ∈ t.buckets, ∃ e ∈ chain, e.key = key ∧ e.value = value

/-- The table holds an entry for `key`, in some bucket. -/
def HasKey (t : HashTable) (key : Nat) : Prop :=
  ∃ chain ∈ t.buckets, ∃ e ∈ chain, e.key = key

/-- The tables reachable from `createHashTable` by calls of `insertItem`, `removeItem`
and `deleteItem` that stay inside the bucket array. -/
inductive Reachable : HashTable → Prop
  | create (hashFunction : Nat → Nat) (numBuckets : Nat) (t : HashTable) :
      createHashTable hashFunction numBuckets = some t → Reachable t
  | insert (t : HashTable) (key : Nat) (value : Ptr) (old : Ptr) (t1 : HashTable) :
      Reachable t → insertItem t key value = some (old, t1) → Reachable t1
  | remove (t : HashTable) (key : Nat) (old : Ptr) (t1 : HashTable) :
      Reachable t → removeItem t key = some (old, t1) → Reachable t1
  | delete (t : HashTable) (key : Nat) (t1 : HashTable) :
      Reachable t → deleteItem t key = some t1 → Reachable t1

/-- Every chain holds only keys that hash to its bucket, each at most once. -/
def ChainsOk (t : HashTable) : Prop :=
  ∀ i chain, t.buckets[i]? = some chain →
    (∀ e ∈ chain, t.hash e.key = i) ∧ (chain.map HashTableEntry.key).Nodup

/-- The table with the chain of bucket `i` replaced by `chain`. -/
def withBucket (t : HashTable) (i : Nat) (chain : List HashTableEntry) : HashTable :=
  { t with buckets := t.buckets.set i chain }

/-- The value the table associates with a key: that of the first node of that key in
the chain of the key's bucket. -/
def lookup (t : HashTable) (key : Nat) : Option Ptr :=
  chainLookup key (bucketOf t key)

/-- A table of three buckets under `testHash`, keys 3 and 0 colliding in bucket 0. -/
def sampleTable : HashTable :=
  { buckets := [[{ key := 3, value := 20 }, { key := 0, value := 10 }], [{ key := 1, value := 0 }], []]
    hash := testHash
    num_buckets := 3 }

/-- The table `createHashTable(testHash, 3)` returns. -/
def freshTable : HashTable :=
  { buckets := [[], [], []], hash := testHash, num_buckets := 3 }

/-- The insertion loop of the bulk tests (`MultipleRemove`,
`StressTestInsertsAndRemoves`): `insertItem` for each pair in turn, the returned
pointers dropped. -/
def insertAll (t : HashTable) : List (Nat × Ptr) → Option HashTable
  | [] => some t
  | (k, v) :: rest =>
    match insertItem t k v with
    | none => none
    | some (_, t1) => insertAll t1 rest

/-- The removal loop of the bulk tests: `removeItem` for each key in turn; the
returned pointers in call order, and the table at the end. -/
def removeAll (t : HashTable) : List Nat → Option (List Ptr × HashTable)
  | [] => some ([], t)
  | k :: rest =>
    match removeItem t k with
    | none => none
    | some (v, t1) =>
      match removeAll t1 rest with
      | none => none
      | some (vs, t2) => some (v :: vs, t2)

/-- The table associates exactly the pairs of `kvs`, and its chains are in order. -/
def Models (t : HashTable) (kvs : List (Nat × Ptr)) : Prop :=
  SlotsOk t ∧ ChainsOk t ∧ ∀ k v, lookup t k = some v ↔ (k, v) ∈ kvs

/-- The test `EdgeCaseTest.FullHashTable`: a table of `SMALL_BUCKET_NUM = 2` buckets
under the suite's hash function, `insertItem` of keys 0, 1, 2 with `m[0]`, `m[1]`,
`m[2]`, then the results of `getItem` for keys 0, 1, 2. The result is `none` when a
call indexes `buckets` outside the array. -/
def fullHashTableTest (m0 m1 m2 : Ptr) : Option (List Ptr) :=
  match createHashTable testHash 2 with
  | none => none
  | some ht =>
    match insertAll ht [(0, m0), (1, m1), (2, m2)] with
    | none => none
    | some ht1 =>
      match getItem ht1 0, getItem ht1 1, getItem ht1 2 with
      | some r0, some r1, some r2 => some [r0, r1, r2]
      | _, _, _ => none

/-- No chain of the table holds two entries with the same key. -/
def DistinctKeys (t : HashTable) : Prop :=
  ∀ chain ∈ t.buckets, (chain.map HashTableEntry.key).Nodup

/-- Every entry of the chain of bucket `i` has a key that hashes to `i`. -/
def PlacedOk (t : HashTable) : Prop :=
  ∀ i chain, t.buckets[i]? = some chain → ∀ e ∈ chain, t.hash e.key = i

/-- The number of entries the table holds, over all its chains. -/
def entryCount (t : HashTable) : Nat :=
  (t.buckets.map List.length).sum

/-- A table of three buckets under `testHash` with a chain of three entries. -/
def longChainTable : HashTable :=
  { buckets := [[{ key := 6, value := 30 }, { key := 3, value := 20 }, { key := 0, value := 10 }],
      [{ key := 4, value := 40 }], []]
    hash := testHash
    num_buckets := 3 }

/-- One call of the public interface on a live table. -/
inductive Call where
  | insert (key : Nat) (value : Ptr)
  | get (key : Nat)
  | remove (key : Nat)
  | delete (key : Nat)
deriving DecidableEq, Repr

/-- What a call hands back with the table afterwards: the pointer `insertItem`,
`getItem` or `removeItem` returns, and `none` for `deleteItem`, which returns `void`.
The whole result is `none` when the call indexes `buckets` outside the array. -/
def doCall (t : HashTable) : Call → Option (Option Ptr × HashTable)
  | Call.insert key value =>
    match insertItem t key value with
    | none => none
    | some (old, t1) => some (some old, t1)
  | Call.get key =>
    match getItem t key with
    | none => none
    | some r => some (some r, t)
  | Call.remove key =>
    match removeItem t key with
    | none => none
    | some (old, t1) => some (some old, t1)
  | Call.delete key =>
    match deleteItem t key with
    | none => none
    | some t1 => some (none, t1)

/-- A sequence of calls, one after the other: what each call handed back, in call
order, and the table at the end; `none` as soon as one call leaves the array. -/
def runCalls (t : HashTable) : List Call → Option (List (Option Ptr) × HashTable)
  | [] => some ([], t)
  | c :: rest =>
    match doCall t c with
    | none => none
    | some (r, t1) =>
      match runCalls t1 rest with
      | none => none
      | some (rs, t2) => some (r :: rs, t2)

/-- The key a call is about. -/
def callKey : Call → Nat
  | Call.insert key _ => key
  | Call.get key => key
  | Call.remove key => key
  | Call.delete key => key

/-- What a call does to the chain of its key's bucket. -/
def callChain : Call → List HashTableEntry → List HashTableEntry
  | Call.insert key value, chain => chainInsert key value chain
  | Call.get _, chain => chain
  | Call.remove key, chain => chainErase key chain
  | Call.delete key, chain => chainErase key chain

/-- What a call hands back when its key is bound to `bound` (`none`: not bound). -/
def callReply : Call → Option Ptr → Option Ptr
  | Call.delete _, _ => none
  | _, bound => some (bound.getD NULL)

/-- The abstract key -> value map of the refinement claim: a key is bound to a value
or to nothing. -/
abbrev AbstractMap := Nat → Option Ptr

/-- The abstract map "started empty". -/
def emptyMap : AbstractMap := fun _ => none

/-- The abstract "set": bind the key to the value. -/
def abstractSet (m : AbstractMap) (key : Nat) (value : Ptr) : AbstractMap :=
  fun k => if k = key then some value else m k

/-- The abstract "erase": leave the key unbound. -/
def abstractErase (m : AbstractMap) (key : Nat) : AbstractMap :=
  fun k => if k = key then none else m k

/-- The abstract operations, in the words of the claim: insert is set and returns the
previous binding or empty (`NULL`), get is lookup or empty, remove is erase and
returns the erased binding or empty; delete is remove with nothing returned. -/
def abstractCall (m : AbstractMap) : Call → Option Ptr × AbstractMap
  | Call.insert key value => (some ((m key).getD NULL), abstractSet m key value)
  | Call.get key => (some ((m key).getD NULL), m)
  | Call.remove key => (some ((m key).getD NULL), abstractErase m key)
  | Call.delete key => (none, abstractErase m key)

/-- What each call of a sequence returns on the abstract map. -/
def abstractRun (m : AbstractMap) : List Call → List (Option Ptr)
  | [] => []
  | c :: rest => (abstractCall m c).1 :: abstractRun (abstractCall m c).2 rest

/-- In the chain of the bucket of `k1`, an entry of key `k2` comes before an entry of
key `k1` (on the list of the chain's keys, in link order). -/
def Before (k2 k1 : Nat) (t : HashTable) : Prop :=
  List.Sublist [k2, k1] ((bucketOf t k1).map HashTableEntry.key)

/-! ## The loops and the operations, chain by chain -/

theorem findLoop_none (key : Nat) (chain : List HashTableEntry) (pos : Nat)
    (h : chainLookup key chain = none) : findLoop key chain pos = none := by
  induction chain generalizing pos with
  | nil => rfl
  | cons e rest ih =>
    by_cases hk : e.key = key
    · simp [chainLookup, hk] at h
    · simp only [chainLookup, hk, if_false] at h
      simp only [findLoop, hk, if_false]
      exact ih (pos + 1) h

theorem findLoop_some (key : Nat) (chain : List HashTableEntry) (pos : Nat) (v : Ptr)
    (h : chainLookup key chain = some v) :
    ∃ j e, findLoop key chain pos = some (pos + j) ∧ chain[j]? = some e ∧ e.value = v ∧
      ∀ w, chain.set j { e with value := w } = chainUpdate key w chain := by
  induction chain generalizing pos with
  | nil => simp [chainLookup] at h
  | cons e rest ih =>
    by_cases hk : e.key = key
    · simp only [chainLookup, hk, if_true, Option.some.injEq] at h
      refine ⟨0, e, ?_, by simp, h, ?_⟩
      · simp [findLoop, hk]
      · intro w; simp [chainUpdate, hk]
    · simp only [chainLookup, hk, if_false] at h
      obtain ⟨j, e1, h1, h2, h3, h4⟩ := ih (pos + 1) h
      refine ⟨j + 1, e1, ?_, ?_, h3, ?_⟩
      · simp only [findLoop, hk, if_false, h1]; congr 1; omega
      · simpa using h2
      · intro w; simp [chainUpdate, hk, h4 w]

theorem removeLoop_none (key : Nat) (chain : List HashTableEntry) (prev : Option Nat)
    (pos : Nat) (h : chainLookup key chain = none) :
    (removeLoop key chain prev pos).2 = none := by
  induction chain generalizing prev pos with
  | nil => rfl
  | cons e rest ih =>
    by_cases hk : e.key = key
    · simp [chainLookup, hk] at h
    · simp only [chainLookup, hk, if_false] at h
      simp only [removeLoop, ne_eq, hk, not_false_eq_true, if_true]
      exact ih _ _ h

theorem removeLoop_some (key : Nat) (chain : List HashTableEntry) (q : Nat) (v : Ptr)
    (h : chainLookup key chain = some v) :
    ∃ j e, removeLoop key chain (some q) (q + 1) = (some (q + j), some (q + 1 + j)) ∧
      chain[j]? = some e ∧ e.value = v ∧
      chain.take j ++ chain.drop (j + 1) = chainErase key chain := by
  induction chain generalizing q with
  | nil => simp [chainLookup] at h
  | cons e rest ih =>
    by_cases hk : e.key = key
    · simp only [chainLookup, hk, if_true, Option.some.injEq] at h
      refine ⟨0, e, ?_, by simp, h, ?_⟩
      · simp [removeLoop, hk]
      · simp [chainErase, hk]
    · simp only [chainLookup, hk, if_false] at h
      obtain ⟨j, e1, h1, h2, h3, h4⟩ := ih (q + 1) h
      refine ⟨j + 1, e1, ?_, ?_, h3, ?_⟩
      · simp only [removeLoop, ne_eq, hk, not_false_eq_true, if_true, h1]
        simp only [Prod.mk.injEq, Option.some.injEq]; omega
      · simpa using h2
      · simp [chainErase, hk, h4]

theorem set_same {α : Type} (l : List α) (i : Nat) (a : α) (h : l[i]? = some a) :
    l.set i a = l := by
  induction l generalizing i with
  | nil => rfl
  | cons x xs ih =>
    cases i with
    | zero => simp at h; simp [h]
    | succ n => simp at h; simp [ih n h]

theorem chainErase_of_lookup_none (key : Nat) (chain : List HashTableEntry)
    (h : chainLookup key chain = none) : chainErase key chain = chain := by
  induction chain with
  | nil => rfl
  | cons e rest ih =>
    by_cases hk : e.key = key
    · simp [chainLookup, hk] at h
    · simp only [chainLookup, hk, if_false] at h
      simp [chainErase, hk, ih h]

/-- What `getItem` computes, read off the chain of the key's bucket. -/
theorem getItem_eq (t : HashTable) (key : Nat) (chain : List HashTableEntry)
    (hb : t.buckets[t.hash key]? = some chain) :
    getItem t key = some ((chainLookup key chain).getD NULL) := by
  unfold getItem findItem
  simp only [hb]
  cases chain with
  | nil => rfl
  | cons e rest =>
    cases hl : chainLookup key (e :: rest) with
    | none => simp [findLoop_none key _ 0 hl]
    | some v =>
      obtain ⟨j, e1, h1, h2, h3, _⟩ := findLoop_some key _ 0 v hl
      simp only [h1, deref, hb, Nat.zero_add, h2, h3, Option.getD_some]

/-- What `insertItem` computes, read off the chain of the key's bucket. -/
theorem insertItem_eq (t : HashTable) (key : Nat) (value : Ptr)
    (chain : List HashTableEntry) (hb : t.buckets[t.hash key]? = some chain) :
    insertItem t key value =
      some ((chainLookup key chain).getD NULL,
        withBucket t (t.hash key) (chainInsert key value chain)) := by
  unfold insertItem findItem withBucket
  simp only [hb]
  cases chain with
  | nil => rfl
  | cons e rest =>
    cases hl : chainLookup key (e :: rest) with
    | none => simp [findLoop_none key _ 0 hl, hb, chainInsert, hl]
    | some v =>
      obtain ⟨j, e1, h1, h2, h3, h4⟩ := findLoop_some key _ 0 v hl
      simp only [h1, deref, storeValue, hb, Nat.zero_add, h2, h3, Option.getD_some, h4,
        chainInsert, hl]

/-- What `removeItem` computes, read off the chain of the key's bucket. -/
theorem removeItem_eq (t : HashTable) (key : Nat) (chain : List HashTableEntry)
    (hb : t.buckets[t.hash key]? = some chain) :
    removeItem t key =
      some ((chainLookup key chain).getD NULL,
        withBucket t (t.hash key) (chainErase key chain)) := by
  unfold removeItem withBucket
  simp only [hb]
  cases chain with
  | nil =>
    have : t.buckets.set (t.hash key) [] = t.buckets := set_same _ _ _ hb
    simp [removeSearch, removeLoop, chainLookup, chainErase, this]
  | cons e rest =>
    by_cases hk : e.key = key
    · simp [hk, chainLookup, chainErase]
    · simp only [hk, if_false]
      cases hl : chainLookup key (e :: rest) with
      | none =>
        have h2 := removeLoop_none key (e :: rest) none 0 hl
        have h3 : t.buckets.set (t.hash key) (e :: rest) = t.buckets := set_same _ _ _ hb
        unfold removeSearch
        generalize removeLoop key (e :: rest) none 0 = r at h2
        obtain ⟨r1, r2⟩ := r
        simp only at h2
        subst h2
        simp [chainErase_of_lookup_none key _ hl, h3]
      | some v =>
        have hl1 : chainLookup key rest = some v := by
          simpa [chainLookup, hk] using hl
        obtain ⟨j, e1, h1, h2, h3, h4⟩ := removeLoop_some key rest 0 v hl1
        have h5 : removeLoop key (e :: rest) none 0 = (some j, some (j + 1)) := by
          simp only [removeLoop, ne_eq, hk, not_false_eq_true, if_true, Nat.zero_add] at h1 ⊢
          rw [h1, Nat.add_comm 1 j]
        unfold removeSearch
        simp [h5, h2, h3, chainErase, hk, h4]

/-! ## Chains as association lists -/

theorem chainLookup_eq_none_iff (key : Nat) (chain : List HashTableEntry) :
    chainLookup key chain = none ↔ ∀ e ∈ chain, e.key ≠ key := by
  induction chain with
  | nil => simp [chainLookup]
  | cons e rest ih =>
    by_cases hk : e.key = key
    · simp [chainLookup, hk]
    · simp [chainLookup, hk, ih]

theorem chainLookup_some_mem (key : Nat) (chain : List HashTableEntry) (v : Ptr)
    (h : chainLookup key chain = some v) : ∃ e ∈ chain, e.key = key ∧ e.value = v := by
  induction chain with
  | nil => simp [chainLookup] at h
  | cons e rest ih =>
    by_cases hk : e.key = key
    · simp only [chainLookup, hk, if_true, Option.some.injEq] at h
      exact ⟨e, by simp, hk, h⟩
    · simp only [chainLookup, hk, if_false] at h
      obtain ⟨e1, h1, h2⟩ := ih h
      exact ⟨e1, by simp [h1], h2⟩

theorem chainLookup_update_self (key : Nat) (value : Ptr) (chain : List HashTableEntry)
    (v : Ptr) (h : chainLookup key chain = some v) :
    chainLookup key (chainUpdate key value chain) = some value := by
  induction chain with
  | nil => simp [chainLookup] at h
  | cons e rest ih =>
    by_cases hk : e.key = key
    · simp [chainLookup, chainUpdate, hk]
    · simp only [chainLookup, hk, if_false] at h
      simp [chainLookup, chainUpdate, hk, ih h]

theorem chainLookup_update_other (key other : Nat) (value : Ptr)
    (chain : List HashTableEntry) (hne : other ≠ key) :
    chainLookup other (chainUpdate key value chain) = chainLookup other chain := by
  induction chain with
  | nil => rfl
  | cons e rest ih =>
    by_cases hk : e.key = key
    · have : ¬ e.key = other := fun h => hne (h.symm.trans hk)
      simp [chainLookup, chainUpdate, hk, this, Ne.symm hne]
    · by_cases ho : e.key = other
      · simp [chainLookup, chainUpdate, hk, ho, hne]
      · simp [chainLookup, chainUpdate, hk, ho, ih]

theorem chainLookup_insert_self (key : Nat) (value : Ptr) (chain : List HashTableEntry) :
    chainLookup key (chainInsert key value chain) = some value := by
  unfold chainInsert
  cases h : chainLookup key chain with
  | none => simp [chainLookup, createHashTableEntry]
  | some v => exact chainLookup_update_self key value chain v h

theorem chainLookup_insert_other (key other : Nat) (value : Ptr)
    (chain : List HashTableEntry) (hne : other ≠ key) :
    chainLookup other (chainInsert key value chain) = chainLookup other chain := by
  unfold chainInsert
  cases h : chainLookup key chain with
  | none => simp [chainLookup, createHashTableEntry, Ne.symm hne]
  | some v => exact chainLookup_update_other key other value chain hne

theorem chainLookup_erase_other (key other : Nat) (chain : List HashTableEntry)
    (hne : other ≠ key) :
    chainLookup other (chainErase key chain) = chainLookup other chain := by
  induction chain with
  | nil => rfl
  | cons e rest ih =>
    by_cases hk : e.key = key
    · have : ¬ e.key = other := fun h => hne (h.symm.trans hk)
      simp [chainLookup, chainErase, hk, this, Ne.symm hne]
    · by_cases ho : e.key = other
      · simp [chainLookup, chainErase, hk, ho, hne]
      · simp [chainLookup, chainErase, hk, ho, ih]

theorem chainLookup_erase_self (key : Nat) (chain : List HashTableEntry)
    (hd : (chain.map HashTableEntry.key).Nodup) :
    chainLookup key (chainErase key chain) = none := by
  induction chain with
  | nil => rfl
  | cons e rest ih =>
    simp only [List.map_cons, List.nodup_cons, List.mem_map, not_exists, not_and] at hd
    by_cases hk : e.key = key
    · simp only [chainErase, hk, if_true]
      rw [chainLookup_eq_none_iff]
      intro e1 h1 h2
      exact hd.1 e1 h1 (h2.trans hk.symm)
    · simp [chainLookup, chainErase, hk, ih hd.2]

/-! ## Buckets -/

theorem bucket_in_range (t : HashTable) (key : Nat) (hs : SlotsOk t)
    (hk : t.hash key < t.num_buckets) :
    t.buckets[t.hash key]? = some (bucketOf t key) := by
  unfold SlotsOk at hs
  have h : t.hash key < t.buckets.length := by omega
  simp [bucketOf, List.getElem?_eq_getElem h]

theorem bucket_set (l : List (List HashTableEntry)) (i j : Nat)
    (c chain : List HashTableEntry) (hb : l[i]? = some chain) :
    (l.set i c)[j]? = if j = i then some c else l[j]? := by
  have hi : i < l.length := by
    rcases List.getElem?_eq_some.mp hb with ⟨h, _⟩
    exact h
  by_cases hj : j = i
  · subst hj; simp [hi]
  · simp [hj, List.getElem?_set_ne (Ne.symm hj)]

theorem withBucket_get (t : HashTable) (i j : Nat) (c chain : List HashTableEntry)
    (hb : t.buckets[i]? = some chain) :
    (withBucket t i c).buckets[j]? = if j = i then some c else t.buckets[j]? :=
  bucket_set t.buckets i j c chain hb

theorem withBucket_slots (t : HashTable) (i : Nat) (c : List HashTableEntry)
    (hs : SlotsOk t) : SlotsOk (withBucket t i c) := by
  unfold SlotsOk withBucket at *
  simpa using hs

theorem withBucket_same (t : HashTable) (i : Nat) (chain : List HashTableEntry)
    (hb : t.buckets[i]? = some chain) : withBucket t i chain = t := by
  unfold withBucket
  rw [set_same _ _ _ hb]

theorem bucketOf_withBucket (t : HashTable) (i : Nat) (c chain : List HashTableEntry)
    (hb : t.buckets[i]? = some chain) (key : Nat) :
    bucketOf (withBucket t i c) key = if t.hash key = i then c else bucketOf t key := by
  have h := withBucket_get t i (t.hash key) c chain hb
  unfold bucketOf
  show ((withBucket t i c).buckets[t.hash key]?).getD [] = _
  rw [h]
  by_cases hj : t.hash key = i <;> simp [hj]

theorem getItem_lookup (t : HashTable) (key : Nat) (hs : SlotsOk t)
    (hk : t.hash key < t.num_buckets) :
    getItem t key = some ((lookup t key).getD NULL) :=
  getItem_eq t key _ (bucket_in_range t key hs hk)

theorem insertItem_lookup (t : HashTable) (key : Nat) (value : Ptr) (hs : SlotsOk t)
    (hk : t.hash key < t.num_buckets) :
    insertItem t key value =
      some ((lookup t key).getD NULL,
        withBucket t (t.hash key) (chainInsert key value (bucketOf t key))) :=
  insertItem_eq t key value _ (bucket_in_range t key hs hk)

theorem removeItem_lookup (t : HashTable) (key : Nat) (hs : SlotsOk t)
    (hk : t.hash key < t.num_buckets) :
    removeItem t key =
      some ((lookup t key).getD NULL,
        withBucket t (t.hash key) (chainErase key (bucketOf t key))) :=
  removeItem_eq t key _ (bucket_in_range t key hs hk)

theorem lookup_insert_self (t : HashTable) (key : Nat) (value : Ptr) (hs : SlotsOk t)
    (hk : t.hash key < t.num_buckets) :
    lookup (withBucket t (t.hash key) (chainInsert key value (bucketOf t key))) key =
      some value := by
  unfold lookup
  rw [bucketOf_withBucket t _ _ _ (bucket_in_range t key hs hk)]
  simp [chainLookup_insert_self]

theorem lookup_insert_other (t : HashTable) (key other : Nat) (value : Ptr)
    (hs : SlotsOk t) (hk : t.hash key < t.num_buckets) (hne : other ≠ key) :
    lookup (withBucket t (t.hash key) (chainInsert key value (bucketOf t key))) other =
      lookup t other := by
  unfold lookup
  rw [bucketOf_withBucket t _ _ _ (bucket_in_range t key hs hk)]
  by_cases hj : t.hash other = t.hash key
  · simp only [hj, if_true]
    rw [chainLookup_insert_other key other value _ hne]
    simp [bucketOf, hj]
  · simp [hj]

theorem lookup_remove_other (t : HashTable) (key other : Nat)
    (hs : SlotsOk t) (hk : t.hash key < t.num_buckets) (hne : other ≠ key) :
    lookup (withBucket t (t.hash key) (chainErase key (bucketOf t key))) other =
      lookup t other := by
  unfold lookup
  rw [bucketOf_withBucket t _ _ _ (bucket_in_range t key hs hk)]
  by_cases hj : t.hash other = t.hash key
  · simp only [hj, if_true]
    rw [chainLookup_erase_other key other _ hne]
    simp [bucketOf, hj]
  · simp [hj]

/-! ## The invariants of reachable tables -/

theorem insertItem_some_bucket (t : HashTable) (k : Nat) (v : Ptr) (x : Ptr × HashTable)
    (h : insertItem t k v = some x) : ∃ chain, t.buckets[t.hash k]? = some chain := by
  cases hb : t.buckets[t.hash k]? with
  | some chain => exact ⟨chain, rfl⟩
  | none => simp [insertItem, findItem, hb] at h

theorem removeItem_some_bucket (t : HashTable) (k : Nat) (x : Ptr × HashTable)
    (h : removeItem t k = some x) : ∃ chain, t.buckets[t.hash k]? = some chain := by
  cases hb : t.buckets[t.hash k]? with
  | some chain => exact ⟨chain, rfl⟩
  | none => simp [removeItem, hb] at h

theorem chainUpdate_keys (key : Nat) (value : Ptr) (chain : List HashTableEntry) :
    (chainUpdate key value chain).map HashTableEntry.key = chain.map HashTableEntry.key := by
  induction chain with
  | nil => rfl
  | cons e rest ih =>
    by_cases hk : e.key = key
    · simp [chainUpdate, hk]
    · simp [chainUpdate, hk, ih]

theorem chainErase_sublist (key : Nat) (chain : List HashTableEntry) :
    (chainErase key chain).Sublist chain := by
  induction chain with
  | nil => exact List.Sublist.slnil
  | cons e rest ih =>
    by_cases hk : e.key = key
    · simp [chainErase, hk]
    · simp [chainErase, hk, ih]

theorem chainInsert_keys (key : Nat) (value : Ptr) (chain : List HashTableEntry) :
    (chainInsert key value chain).map HashTableEntry.key =
      if chainLookup key chain = none then key :: chain.map HashTableEntry.key
      else chain.map HashTableEntry.key := by
  unfold chainInsert
  cases h : chainLookup key chain with
  | none => simp [createHashTableEntry]
  | some v => simp [chainUpdate_keys]

theorem chainsOk_withBucket (t : HashTable) (i : Nat) (c chain : List HashTableEntry)
    (hc : ChainsOk t) (hb : t.buckets[i]? = some chain)
    (h1 : ∀ k ∈ c.map HashTableEntry.key, t.hash k = i)
    (h2 : (c.map HashTableEntry.key).Nodup) : ChainsOk (withBucket t i c) := by
  intro j cj hj
  rw [withBucket_get t i j c chain hb] at hj
  by_cases hji : j = i
  · simp only [hji, if_true, Option.some.injEq] at hj
    subst hj
    subst hji
    refine ⟨fun e he => ?_, h2⟩
    exact h1 e.key (List.mem_map_of_mem _ he)
  · simp only [hji, if_false] at hj
    exact hc j cj hj

theorem chainsOk_insert (t : HashTable) (k : Nat) (v : Ptr) (chain : List HashTableEntry)
    (hc : ChainsOk t) (hb : t.buckets[t.hash k]? = some chain) :
    ChainsOk (withBucket t (t.hash k) (chainInsert k v chain)) := by
  obtain ⟨h1, h2⟩ := hc _ _ hb
  have h1k : ∀ x ∈ chain.map HashTableEntry.key, t.hash x = t.hash k := by
    intro x hx
    obtain ⟨e, he, rfl⟩ := List.mem_map.mp hx
    exact h1 e he
  apply chainsOk_withBucket t _ _ chain hc hb
  · intro x hx
    rw [chainInsert_keys] at hx
    by_cases hl : chainLookup k chain = none
    · simp only [hl, if_true, List.mem_cons] at hx
      rcases hx with rfl | hx
      · rfl
      · exact h1k x hx
    · simp only [hl, if_false] at hx
      exact h1k x hx
  · rw [chainInsert_keys]
    by_cases hl : chainLookup k chain = none
    · simp only [hl, if_true, List.nodup_cons]
      refine ⟨?_, h2⟩
      intro hx
      obtain ⟨e, he, hek⟩ := List.mem_map.mp hx
      exact (chainLookup_eq_none_iff k chain).mp hl e he hek
    · simpa [hl] using h2

theorem chainsOk_remove (t : HashTable) (k : Nat) (chain : List HashTableEntry)
    (hc : ChainsOk t) (hb : t.buckets[t.hash k]? = some chain) :
    ChainsOk (withBucket t (t.hash k) (chainErase k chain)) := by
  obtain ⟨h1, h2⟩ := hc _ _ hb
  have hsub := chainErase_sublist k chain
  apply chainsOk_withBucket t _ _ chain hc hb
  · intro x hx
    obtain ⟨e, he, rfl⟩ := List.mem_map.mp hx
    exact h1 e (hsub.subset he)
  · exact h2.sublist (hsub.map _)

theorem createHashTable_eq (hashFunction : Nat → Nat) (numBuckets : Nat) (t : HashTable)
    (h : createHashTable hashFunction numBuckets = some t) :
    numBuckets ≠ 0 ∧
      t = { buckets := List.replicate numBuckets [], hash := hashFunction,
            num_buckets := numBuckets } := by
  unfold createHashTable at h
  by_cases hn : numBuckets = 0
  · simp [hn] at h
  · simp only [hn, if_false, Option.some.injEq] at h
    exact ⟨hn, h.symm⟩

theorem createHashTable_some (hashFunction : Nat → Nat) (numBuckets : Nat)
    (hn : 1 ≤ numBuckets) :
    createHashTable hashFunction numBuckets =
      some { buckets := List.replicate numBuckets [], hash := hashFunction,
             num_buckets := numBuckets } := by
  have : numBuckets ≠ 0 := by omega
  simp [createHashTable, this]

theorem created_ok (hashFunction : Nat → Nat) (numBuckets : Nat) (t : HashTable)
    (h : createHashTable hashFunction numBuckets = some t) : SlotsOk t ∧ ChainsOk t := by
  obtain ⟨_, rfl⟩ := createHashTable_eq _ _ _ h
  refine ⟨by simp [SlotsOk], ?_⟩
  intro i chain hi
  have hmem : chain ∈ List.replicate numBuckets ([] : List HashTableEntry) :=
    List.mem_iff_getElem?.mpr ⟨i, hi⟩
  have : chain = [] := (List.mem_replicate.mp hmem).2
  subst this
  simp

theorem insert_ok (t : HashTable) (k : Nat) (v old : Ptr) (t1 : HashTable)
    (h : insertItem t k v = some (old, t1)) (hs : SlotsOk t) (hc : ChainsOk t) :
    SlotsOk t1 ∧ ChainsOk t1 := by
  obtain ⟨chain, hb⟩ := insertItem_some_bucket t k v _ h
  rw [insertItem_eq t k v chain hb] at h
  simp only [Option.some.injEq, Prod.mk.injEq] at h
  rw [← h.2]
  exact ⟨withBucket_slots _ _ _ hs, chainsOk_insert t k v chain hc hb⟩

theorem remove_ok (t : HashTable) (k : Nat) (old : Ptr) (t1 : HashTable)
    (h : removeItem t k = some (old, t1)) (hs : SlotsOk t) (hc : ChainsOk t) :
    SlotsOk t1 ∧ ChainsOk t1 := by
  obtain ⟨chain, hb⟩ := removeItem_some_bucket t k _ h
  rw [removeItem_eq t k chain hb] at h
  simp only [Option.some.injEq, Prod.mk.injEq] at h
  rw [← h.2]
  exact ⟨withBucket_slots _ _ _ hs, chainsOk_remove t k chain hc hb⟩

theorem reachable_ok (t : HashTable) (h : Reachable t) : SlotsOk t ∧ ChainsOk t := by
  induction h with
  | create hashFunction numBuckets t h => exact created_ok _ _ _ h
  | insert t k v old t1 _ h ih => exact insert_ok t k v old t1 h ih.1 ih.2
  | remove t k old t1 _ h ih => exact remove_ok t k old t1 h ih.1 ih.2
  | delete t k t1 _ h ih =>
    unfold deleteItem at h
    cases hr : removeItem t k with
    | none => simp [hr] at h
    | some x =>
      obtain ⟨old, t2⟩ := x
      simp only [hr, Option.some.injEq] at h
      subst h
      exact remove_ok t k old t2 hr ih.1 ih.2

/-! ## Entries and the value of a key -/

theorem chainLookup_of_mem (chain : List HashTableEntry) (e : HashTableEntry)
    (hd : (chain.map HashTableEntry.key).Nodup) (he : e ∈ chain) :
    chainLookup e.key chain = some e.value := by
  induction chain with
  | nil => simp at he
  | cons x rest ih =>
    simp only [List.map_cons, List.nodup_cons, List.mem_map, not_exists, not_and] at hd
    rcases List.mem_cons.mp he with rfl | hr
    · simp [chainLookup]
    · have hx : ¬ x.key = e.key := fun h => hd.1 e hr h.symm
      simp [chainLookup, hx, ih hd.2 hr]

theorem bucketOf_of_get (t : HashTable) (k : Nat) (chain : List HashTableEntry)
    (hb : t.buckets[t.hash k]? = some chain) : bucketOf t k = chain := by
  simp [bucketOf, hb]

theorem bucketOf_mem (t : HashTable) (k : Nat) (e : HashTableEntry)
    (he : e ∈ bucketOf t k) : bucketOf t k ∈ t.buckets := by
  cases hb : t.buckets[t.hash k]? with
  | none => simp [bucketOf, hb] at he
  | some chain =>
    rw [bucketOf_of_get t k chain hb]
    exact List.mem_iff_getElem?.mpr ⟨_, hb⟩

theorem lookup_of_entry (t : HashTable) (chain : List HashTableEntry) (e : HashTableEntry)
    (hc : ChainsOk t) (hm : chain ∈ t.buckets) (he : e ∈ chain) :
    lookup t e.key = some e.value := by
  obtain ⟨i, hi⟩ := List.mem_iff_getElem?.mp hm
  obtain ⟨h1, h2⟩ := hc i chain hi
  have hh : t.hash e.key = i := h1 e he
  have hb : bucketOf t e.key = chain := bucketOf_of_get t e.key chain (by rw [hh]; exact hi)
  unfold lookup
  rw [hb]
  exact chainLookup_of_mem chain e h2 he

theorem holds_of_lookup (t : HashTable) (k : Nat) (v : Ptr) (h : lookup t k = some v) :
    HoldsEntry t k v := by
  obtain ⟨e, he, h1, h2⟩ := chainLookup_some_mem k _ v h
  exact ⟨bucketOf t k, bucketOf_mem t k e he, e, he, h1, h2⟩

theorem holds_iff_lookup (t : HashTable) (k : Nat) (v : Ptr) (hc : ChainsOk t) :
    HoldsEntry t k v ↔ lookup t k = some v := by
  constructor
  · rintro ⟨chain, hm, e, he, rfl, rfl⟩
    exact lookup_of_entry t chain e hc hm he
  · exact holds_of_lookup t k v

theorem lookup_none_of_not_hasKey (t : HashTable) (k : Nat) (h : ¬ HasKey t k) :
    lookup t k = none := by
  cases hl : lookup t k with
  | none => rfl
  | some v =>
    obtain ⟨chain, hm, e, he, h1, _⟩ := holds_of_lookup t k v hl
    exact absurd ⟨chain, hm, e, he, h1⟩ h

theorem hasKey_iff_lookup (t : HashTable) (k : Nat) (hc : ChainsOk t) :
    HasKey t k ↔ ∃ v, lookup t k = some v := by
  constructor
  · rintro ⟨chain, hm, e, he, rfl⟩
    exact ⟨e.value, lookup_of_entry t chain e hc hm he⟩
  · rintro ⟨v, hv⟩
    obtain ⟨chain, hm, e, he, h1, _⟩ := holds_of_lookup t k v hv
    exact ⟨chain, hm, e, he, h1⟩

theorem lookup_remove_self (t : HashTable) (k : Nat) (hs : SlotsOk t) (hc : ChainsOk t)
    (hk : t.hash k < t.num_buckets) :
    lookup (withBucket t (t.hash k) (chainErase k (bucketOf t k))) k = none := by
  have hb := bucket_in_range t k hs hk
  unfold lookup
  rw [bucketOf_withBucket t _ _ _ hb]
  simp only [if_true]
  exact chainLookup_erase_self k _ (hc _ _ hb).2

/-! ## One call, seen through `lookup` -/

theorem insert_spec (t : HashTable) (k : Nat) (v : Ptr) (hs : SlotsOk t)
    (hk : t.hash k < t.num_buckets) :
    ∃ t1, insertItem t k v = some ((lookup t k).getD NULL, t1) ∧ SlotsOk t1 ∧
      t1.hash = t.hash ∧ t1.num_buckets = t.num_buckets ∧ lookup t1 k = some v ∧
      (∀ other, other ≠ k → lookup t1 other = lookup t other) ∧
      (ChainsOk t → ChainsOk t1) :=
  ⟨_, insertItem_lookup t k v hs hk, withBucket_slots _ _ _ hs, rfl, rfl,
    lookup_insert_self t k v hs hk,
    fun other hne => lookup_insert_other t k other v hs hk hne,
    fun hc => chainsOk_insert t k v _ hc (bucket_in_range t k hs hk)⟩

theorem remove_spec (t : HashTable) (k : Nat) (hs : SlotsOk t)
    (hk : t.hash k < t.num_buckets) :
    ∃ t1, removeItem t k = some ((lookup t k).getD NULL, t1) ∧ SlotsOk t1 ∧
      t1.hash = t.hash ∧ t1.num_buckets = t.num_buckets ∧
      (∀ other, other ≠ k → lookup t1 other = lookup t other) ∧
      (ChainsOk t → lookup t1 k = none ∧ ChainsOk t1) :=
  ⟨_, removeItem_lookup t k hs hk, withBucket_slots _ _ _ hs, rfl, rfl,
    fun other hne => lookup_remove_other t k other hs hk hne,
    fun hc => ⟨lookup_remove_self t k hs hc hk,
      chainsOk_remove t k _ hc (bucket_in_range t k hs hk)⟩⟩

theorem insert_two (t : HashTable) (k1 k2 : Nat) (v1 v2 : Ptr) (hs : SlotsOk t)
    (hk1 : t.hash k1 < t.num_buckets) (hk2 : t.hash k2 < t.num_buckets) (hne : k1 ≠ k2) :
    ∃ o1 t1 o2 t2, insertItem t k1 v1 = some (o1, t1) ∧
      insertItem t1 k2 v2 = some (o2, t2) ∧
      getItem t2 k1 = some v1 ∧ getItem t2 k2 = some v2 ∧
      ∀ k3, t.hash k3 < t.num_buckets → ¬ HasKey t k3 → k3 ≠ k1 → k3 ≠ k2 →
        getItem t2 k3 = some NULL := by
  obtain ⟨t1, e1, hs1, hh1, hn1, l1, f1, _⟩ := insert_spec t k1 v1 hs hk1
  have hk2a : t1.hash k2 < t1.num_buckets := by rw [hh1, hn1]; exact hk2
  obtain ⟨t2, e2, hs2, hh2, hn2, l2, f2, _⟩ := insert_spec t1 k2 v2 hs1 hk2a
  have hr : ∀ x, t.hash x < t.num_buckets → t2.hash x < t2.num_buckets := by
    intro x hx; rw [hh2, hn2, hh1, hn1]; exact hx
  refine ⟨_, t1, _, t2, e1, e2, ?_, ?_, ?_⟩
  · rw [getItem_lookup t2 k1 hs2 (hr k1 hk1), f2 k1 hne, l1]; rfl
  · rw [getItem_lookup t2 k2 hs2 (hr k2 hk2), l2]; rfl
  · intro k3 hk3 hno h31 h32
    rw [getItem_lookup t2 k3 hs2 (hr k3 hk3), f2 k3 h32, f1 k3 h31,
      lookup_none_of_not_hasKey t k3 hno]
    rfl

/-! ## Insert, then read back -/

/-- Claim C1. On every table whose bucket array has `num_buckets` slots, for every key
that hashes inside the array and every value: `insertItem` returns, and `getItem` of
that key on the table it leaves returns exactly the inserted value, whether the key
had an entry before or not. -/
theorem insert_then_get (t : HashTable) (k : Nat) (v : Ptr) (hs : SlotsOk t)
    (hk : t.hash k < t.num_buckets) :
    ∃ old t1, insertItem t k v = some (old, t1) ∧ getItem t1 k = some v := by
  refine ⟨_, _, insertItem_lookup t k v hs hk, ?_⟩
  rw [getItem_lookup _ k (withBucket_slots _ _ _ hs) hk, lookup_insert_self t k v hs hk]
  rfl

theorem insert_then_get_witness :
    SlotsOk sampleTable ∧ sampleTable.hash 0 < sampleTable.num_buckets ∧
      ∃ old t1, insertItem sampleTable 0 7 = some (old, t1) ∧ getItem t1 0 = some 7 :=
  ⟨rfl, by decide, insert_then_get sampleTable 0 7 rfl (by decide)⟩

/-- Claim C2. On every table whose bucket array has `num_buckets` slots and every key
that hashes inside it: after `insertItem(t, k, v1)`, the call `insertItem(t, k, v2)`
returns `v1`, and `getItem` of `k` afterwards returns `v2`. -/
theorem insert_twice (t : HashTable) (k : Nat) (v1 v2 : Ptr) (hs : SlotsOk t)
    (hk : t.hash k < t.num_buckets) :
    ∃ old t1 t2, insertItem t k v1 = some (old, t1) ∧
      insertItem t1 k v2 = some (v1, t2) ∧ getItem t2 k = some v2 := by
  have hs1 := withBucket_slots t (t.hash k) (chainInsert k v1 (bucketOf t k)) hs
  have hk1 : (withBucket t (t.hash k) (chainInsert k v1 (bucketOf t k))).hash k <
      (withBucket t (t.hash k) (chainInsert k v1 (bucketOf t k))).num_buckets := hk
  have h2 := insertItem_lookup _ k v2 hs1 hk1
  rw [lookup_insert_self t k v1 hs hk] at h2
  refine ⟨_, _, _, insertItem_lookup t k v1 hs hk, h2, ?_⟩
  rw [getItem_lookup _ k (withBucket_slots _ _ _ hs1) hk1,
    lookup_insert_self _ k v2 hs1 hk1]
  rfl

theorem insert_twice_witness :
    SlotsOk sampleTable ∧ sampleTable.hash 6 < sampleTable.num_buckets ∧
      ∃ old t1 t2, insertItem sampleTable 6 8 = some (old, t1) ∧
        insertItem t1 6 9 = some (8, t2) ∧ getItem t2 6 = some 9 :=
  ⟨rfl, by decide, insert_twice sampleTable 6 8 9 rfl (by decide)⟩

theorem sampleTable_reachable : Reachable sampleTable := by
  have h0 : Reachable freshTable := Reachable.create testHash 3 freshTable rfl
  have h1 := Reachable.insert freshTable 0 10 NULL
    { buckets := [[{ key := 0, value := 10 }], [], []], hash := testHash, num_buckets := 3 }
    h0 rfl
  have h2 := Reachable.insert _ 3 20 NULL
    { buckets := [[{ key := 3, value := 20 }, { key := 0, value := 10 }], [], []],
      hash := testHash, num_buckets := 3 }
    h1 rfl
  exact Reachable.insert _ 1 NULL NULL sampleTable h2 rfl

/-! ## Removal -/

/-- Claim C3, as the code has it. On every reachable table and every key that hashes
inside the bucket array, `removeItem` returns; for every value `v` other than `NULL`
it returns `v` exactly when the table held an entry for the key with value `v`; and it
returns `NULL` exactly when the key's entry held `NULL` or the key had no entry. -/
theorem remove_returns_held_value (t : HashTable) (k : Nat) (hr : Reachable t)
    (hk : t.hash k < t.num_buckets) :
    ∃ r t1, removeItem t k = some (r, t1) ∧
      (∀ v, v ≠ NULL → (r = v ↔ HoldsEntry t k v)) ∧
      (r = NULL ↔ (HoldsEntry t k NULL ∨ ¬ HasKey t k)) := by
  obtain ⟨hs, hc⟩ := reachable_ok t hr
  refine ⟨_, _, removeItem_lookup t k hs hk, ?_, ?_⟩
  · intro v hv
    rw [holds_iff_lookup t k v hc]
    cases hl : lookup t k with
    | none =>
      simp only [Option.getD_none]
      constructor
      · intro h; exact absurd h.symm hv
      · intro h; cases h
    | some w => simp
  · rw [holds_iff_lookup t k NULL hc, hasKey_iff_lookup t k hc]
    cases hl : lookup t k with
    | none => simp
    | some w => simp

theorem remove_returns_held_value_witness :
    Reachable sampleTable ∧ sampleTable.hash 3 < sampleTable.num_buckets ∧
      ∃ r t1, removeItem sampleTable 3 = some (r, t1) ∧
        (∀ v, v ≠ NULL → (r = v ↔ HoldsEntry sampleTable 3 v)) ∧
        (r = NULL ↔ (HoldsEntry sampleTable 3 NULL ∨ ¬ HasKey sampleTable 3)) :=
  ⟨sampleTable_reachable, by decide,
    remove_returns_held_value sampleTable 3 sampleTable_reachable (by decide)⟩

/-- Claim C3 as stated fails at `v = NULL`: on the freshly created three-bucket table,
`removeItem(t, 1)` returns `NULL` although the table holds no entry for key 1 whose
value is `NULL` (it holds no entry at all). -/
theorem remove_returns_null_without_entry :
    createHashTable testHash 3 = some freshTable ∧ Reachable freshTable ∧
      freshTable.hash 1 < freshTable.num_buckets ∧
      removeItem freshTable 1 = some (NULL, freshTable) ∧
      ¬ HoldsEntry freshTable 1 NULL := by
  refine ⟨rfl, Reachable.create testHash 3 freshTable rfl, by decide, rfl, ?_⟩
  simp [HoldsEntry, freshTable]

/-- Claim C4. On every reachable table and every key that hashes inside the bucket
array, `removeItem` returns and `getItem` of that key on the table it leaves returns
`NULL`. -/
theorem remove_then_get (t : HashTable) (k : Nat) (hr : Reachable t)
    (hk : t.hash k < t.num_buckets) :
    ∃ r t1, removeItem t k = some (r, t1) ∧ getItem t1 k = some NULL := by
  obtain ⟨hs, hc⟩ := reachable_ok t hr
  refine ⟨_, _, removeItem_lookup t k hs hk, ?_⟩
  rw [getItem_lookup _ k (withBucket_slots _ _ _ hs) hk, lookup_remove_self t k hs hc hk]
  rfl

/-- Claim C5. On every table whose bucket array has `num_buckets` slots, for every key
that hashes inside it and has no entry in the table, `removeItem` returns `NULL` and
the table is the one it was given: every chain is unchanged. -/
theorem remove_absent (t : HashTable) (k : Nat) (hs : SlotsOk t)
    (hk : t.hash k < t.num_buckets) (hno : ¬ HasKey t k) :
    removeItem t k = some (NULL, t) := by
  have hl := lookup_none_of_not_hasKey t k hno
  rw [removeItem_lookup t k hs hk, hl]
  have he : chainErase k (bucketOf t k) = bucketOf t k := chainErase_of_lookup_none k _ hl
  rw [he, withBucket_same t _ _ (bucket_in_range t k hs hk)]
  rfl

theorem remove_absent_witness :
    SlotsOk sampleTable ∧ sampleTable.hash 6 < sampleTable.num_buckets ∧
      ¬ HasKey sampleTable 6 ∧ removeItem sampleTable 6 = some (NULL, sampleTable) :=
  ⟨rfl, by decide, by simp [HasKey, sampleTable],
    remove_absent sampleTable 6 rfl (by decide) (by simp [HasKey, sampleTable])⟩

theorem remove_then_get_witness :
    Reachable sampleTable ∧ sampleTable.hash 0 < sampleTable.num_buckets ∧
      ∃ r t1, removeItem sampleTable 0 = some (r, t1) ∧ getItem t1 0 = some NULL :=
  ⟨sampleTable_reachable, by decide,
    remove_then_get sampleTable 0 sampleTable_reachable (by decide)⟩

/-! ## Other keys are left alone -/

/-- Claim C6. On every table whose bucket array has `num_buckets` slots and for keys
`k1 ≠ k2` that hash inside it (to the same bucket or not): `insertItem(t, k1, v1)`
leaves the result of `getItem(t, k2)` as it was; after inserting `k1 -> v1` and
`k2 -> v2`, in either order, `getItem` returns `v1` for `k1` and `v2` for `k2`, and
`NULL` for every other key that had no entry in the table. -/
theorem insert_keeps_other_keys (t : HashTable) (k1 k2 : Nat) (v1 v2 : Ptr)
    (hs : SlotsOk t) (hk1 : t.hash k1 < t.num_buckets) (hk2 : t.hash k2 < t.num_buckets)
    (hne : k1 ≠ k2) :
    (∃ old t1 r, insertItem t k1 v1 = some (old, t1) ∧
      getItem t k2 = some r ∧ getItem t1 k2 = some r) ∧
    (∃ o1 t1 o2 t2, insertItem t k1 v1 = some (o1, t1) ∧
      insertItem t1 k2 v2 = some (o2, t2) ∧
      getItem t2 k1 = some v1 ∧ getItem t2 k2 = some v2 ∧
      ∀ k3, t.hash k3 < t.num_buckets → ¬ HasKey t k3 → k3 ≠ k1 → k3 ≠ k2 →
        getItem t2 k3 = some NULL) ∧
    (∃ o2 t1 o1 t2, insertItem t k2 v2 = some (o2, t1) ∧
      insertItem t1 k1 v1 = some (o1, t2) ∧
      getItem t2 k1 = some v1 ∧ getItem t2 k2 = some v2 ∧
      ∀ k3, t.hash k3 < t.num_buckets → ¬ HasKey t k3 → k3 ≠ k1 → k3 ≠ k2 →
        getItem t2 k3 = some NULL) := by
  refine ⟨?_, insert_two t k1 k2 v1 v2 hs hk1 hk2 hne, ?_⟩
  · obtain ⟨t1, e1, hs1, hh1, hn1, _, f1, _⟩ := insert_spec t k1 v1 hs hk1
    have hk2a : t1.hash k2 < t1.num_buckets := by rw [hh1, hn1]; exact hk2
    refine ⟨_, t1, _, e1, getItem_lookup t k2 hs hk2, ?_⟩
    rw [getItem_lookup t1 k2 hs1 hk2a, f1 k2 (Ne.symm hne)]
  · obtain ⟨o2, t1, o1, t2, e1, e2, g2, g1, g3⟩ :=
      insert_two t k2 k1 v2 v1 hs hk2 hk1 (Ne.symm hne)
    exact ⟨o2, t1, o1, t2, e1, e2, g1, g2, fun k3 a b c d => g3 k3 a b d c⟩

/-- Claim C7. On every table whose bucket array has `num_buckets` slots and for keys
`k ≠ k2` that hash inside it (to the same bucket or not), `removeItem(t, k)` leaves
the result of `getItem(t, k2)` as it was. And the scenario: with 3 buckets and
`hash = key mod 3`, after inserting `0 -> A` and `3 -> B`, `removeItem(0)` returns `A`
and `getItem(3)` still returns `B`. -/
theorem remove_keeps_other_keys (t : HashTable) (k k2 : Nat) (A B : Ptr)
    (hs : SlotsOk t) (hk : t.hash k < t.num_buckets) (hk2 : t.hash k2 < t.num_buckets)
    (hne : k ≠ k2) :
    (∃ r t1 r2, removeItem t k = some (r, t1) ∧
      getItem t k2 = some r2 ∧ getItem t1 k2 = some r2) ∧
    (∃ t0 t1 t2 t3, createHashTable testHash 3 = some t0 ∧
      insertItem t0 0 A = some (NULL, t1) ∧ insertItem t1 3 B = some (NULL, t2) ∧
      removeItem t2 0 = some (A, t3) ∧ getItem t3 3 = some B) := by
  constructor
  · obtain ⟨t1, e1, hs1, hh1, hn1, f1, _⟩ := remove_spec t k hs hk
    have hk2a : t1.hash k2 < t1.num_buckets := by rw [hh1, hn1]; exact hk2
    refine ⟨_, t1, _, e1, getItem_lookup t k2 hs hk2, ?_⟩
    rw [getItem_lookup t1 k2 hs1 hk2a, f1 k2 (Ne.symm hne)]
  · exact ⟨_, _, _, _, rfl, rfl, rfl, rfl, rfl⟩

theorem insert_keeps_other_keys_witness :
    SlotsOk sampleTable ∧ sampleTable.hash 6 < sampleTable.num_buckets ∧
      sampleTable.hash 9 < sampleTable.num_buckets ∧ 6 ≠ 9 ∧
      sampleTable.hash 6 = sampleTable.hash 9 ∧
      ∃ old t1 r, insertItem sampleTable 6 7 = some (old, t1) ∧
        getItem sampleTable 9 = some r ∧ getItem t1 9 = some r :=
  ⟨rfl, by decide, by decide, by decide, by decide,
    (insert_keeps_other_keys sampleTable 6 9 7 8 rfl (by decide) (by decide)
      (by decide)).1⟩

theorem remove_keeps_other_keys_witness :
    SlotsOk sampleTable ∧ sampleTable.hash 0 < sampleTable.num_buckets ∧
      sampleTable.hash 3 < sampleTable.num_buckets ∧ 0 ≠ 3 ∧
      sampleTable.hash 0 = sampleTable.hash 3 ∧
      ∃ r t1 r2, removeItem sampleTable 0 = some (r, t1) ∧
        getItem sampleTable 3 = some r2 ∧ getItem t1 3 = some r2 :=
  ⟨rfl, by decide, by decide, by decide, by decide,
    (remove_keeps_other_keys sampleTable 0 3 10 20 rfl (by decide) (by decide)
      (by decide)).1⟩

/-! ## Creation -/

theorem lookup_created (hashFunction : Nat → Nat) (numBuckets : Nat) (t : HashTable)
    (h : createHashTable hashFunction numBuckets = some t) (k : Nat) :
    lookup t k = none := by
  obtain ⟨_, rfl⟩ := createHashTable_eq _ _ _ h
  unfold lookup bucketOf
  simp only [List.getElem?_replicate]
  by_cases hk : hashFunction k < numBuckets <;> simp [hk, chainLookup]

/-- Claim C9. For every bucket count of at least 1 and every hash function,
`createHashTable` returns a table on which `getItem` returns `NULL` for every key that
hashes inside the bucket array: for every key when the hash function is in range. -/
theorem created_table_reads_empty (hashFunction : Nat → Nat) (numBuckets : Nat)
    (hn : 1 ≤ numBuckets) :
    ∃ t, createHashTable hashFunction numBuckets = some t ∧
      ∀ k, hashFunction k < numBuckets → getItem t k = some NULL := by
  have hc := createHashTable_some hashFunction numBuckets hn
  refine ⟨_, hc, fun k hk => ?_⟩
  rw [getItem_lookup _ k (created_ok _ _ _ hc).1 hk, lookup_created _ _ _ hc k]
  rfl

theorem created_table_reads_empty_witness :
    1 ≤ 3 ∧ ∃ t, createHashTable testHash 3 = some t ∧
      getItem t 0 = some NULL ∧ getItem t 1 = some NULL ∧ getItem t 2 = some NULL ∧
      getItem t 10 = some NULL := by
  obtain ⟨t, h1, h2⟩ := created_table_reads_empty testHash 3 (by decide)
  exact ⟨by decide, t, h1, h2 0 (by decide), h2 1 (by decide), h2 2 (by decide),
    h2 10 (by decide)⟩

/-- Claim C10. The call `createHashTable(hash, numBuckets)` returns no table exactly
when `numBuckets` is 0; for every `numBuckets` of at least 1 it returns a table of
exactly `numBuckets` slots, every chain empty, with the given hash function and
`num_buckets = numBuckets`. -/
theorem create_fails_iff_zero (hashFunction : Nat → Nat) (numBuckets : Nat) :
    (createHashTable hashFunction numBuckets = none ↔ numBuckets = 0) ∧
    (1 ≤ numBuckets →
      ∃ t, createHashTable hashFunction numBuckets = some t ∧
        t.buckets.length = numBuckets ∧ (∀ chain ∈ t.buckets, chain = []) ∧
        t.hash = hashFunction ∧ t.num_buckets = numBuckets) := by
  constructor
  · by_cases hn : numBuckets = 0 <;> simp [createHashTable, hn]
  · intro hn
    refine ⟨_, createHashTable_some hashFunction numBuckets hn, ?_, ?_, rfl, rfl⟩
    · simp
    · intro chain hm
      exact (List.mem_replicate.mp hm).2

theorem create_fails_iff_zero_witness :
    createHashTable testHash 0 = none ∧
      ∃ t, createHashTable testHash 3 = some t ∧
        t.buckets.length = 3 ∧ (∀ chain ∈ t.buckets, chain = []) ∧
        t.hash = testHash ∧ t.num_buckets = 3 :=
  ⟨(create_fails_iff_zero testHash 0).1.mpr rfl,
    (create_fails_iff_zero testHash 3).2 (by decide)⟩

/-! ## Inserting many keys, then removing them all -/

theorem models_created (hashFunction : Nat → Nat) (numBuckets : Nat) (t : HashTable)
    (h : createHashTable hashFunction numBuckets = some t) : Models t [] := by
  obtain ⟨hs, hc⟩ := created_ok _ _ _ h
  refine ⟨hs, hc, fun k v => ?_⟩
  simp [lookup_created _ _ _ h k]

theorem models_congr (t : HashTable) (kvs kvs2 : List (Nat × Ptr)) (h : Models t kvs)
    (he : ∀ p, p ∈ kvs ↔ p ∈ kvs2) : Models t kvs2 :=
  ⟨h.1, h.2.1, fun k v => (h.2.2 k v).trans (he (k, v))⟩

theorem models_insert (t : HashTable) (kvs : List (Nat × Ptr)) (k : Nat) (v : Ptr)
    (h : Models t kvs) (hk : t.hash k < t.num_buckets) (hnew : k ∉ kvs.map Prod.fst) :
    ∃ t1, insertItem t k v = some (NULL, t1) ∧ Models t1 ((k, v) :: kvs) ∧
      t1.hash = t.hash ∧ t1.num_buckets = t.num_buckets := by
  obtain ⟨hs, hc, hl⟩ := h
  obtain ⟨t1, e1, hs1, hh1, hn1, l1, f1, c1⟩ := insert_spec t k v hs hk
  have hnone : lookup t k = none := by
    cases hx : lookup t k with
    | none => rfl
    | some w =>
      exact absurd (List.mem_map_of_mem Prod.fst ((hl k w).mp hx)) hnew
  rw [hnone] at e1
  refine ⟨t1, e1, ⟨hs1, c1 hc, fun k2 v2 => ?_⟩, hh1, hn1⟩
  by_cases h2 : k2 = k
  · subst h2
    rw [l1]
    constructor
    · intro hv
      simp only [Option.some.injEq] at hv
      simp [hv]
    · intro hm
      rcases List.mem_cons.mp hm with hm | hm
      · simp only [Prod.mk.injEq, true_and] at hm
        rw [hm]
      · exact absurd (List.mem_map_of_mem Prod.fst hm) hnew
  · rw [f1 k2 h2, hl k2 v2]
    simp [h2]

theorem models_remove (t : HashTable) (rest : List (Nat × Ptr)) (k : Nat) (v : Ptr)
    (h : Models t ((k, v) :: rest)) (hk : t.hash k < t.num_buckets)
    (hnew : k ∉ rest.map Prod.fst) :
    ∃ t1, removeItem t k = some (v, t1) ∧ Models t1 rest ∧
      t1.hash = t.hash ∧ t1.num_buckets = t.num_buckets := by
  obtain ⟨hs, hc, hl⟩ := h
  obtain ⟨t1, e1, hs1, hh1, hn1, f1, c1⟩ := remove_spec t k hs hk
  have hsome : lookup t k = some v := (hl k v).mpr (by simp)
  rw [hsome] at e1
  refine ⟨t1, e1, ⟨hs1, (c1 hc).2, fun k2 v2 => ?_⟩, hh1, hn1⟩
  by_cases h2 : k2 = k
  · subst h2
    rw [(c1 hc).1]
    constructor
    · intro hv; cases hv
    · intro hm
      exact absurd (List.mem_map_of_mem Prod.fst hm) hnew
  · rw [f1 k2 h2, hl k2 v2]
    simp [h2]

theorem models_nil_empty (t : HashTable) (h : Models t []) :
    ∀ chain ∈ t.buckets, chain = [] := by
  intro chain hm
  cases chain with
  | nil => rfl
  | cons e rest =>
    have := lookup_of_entry t (e :: rest) e h.2.1 hm (by simp)
    exact absurd ((h.2.2 e.key e.value).mp this) (by simp)

theorem insertAll_models (kvs : List (Nat × Ptr)) (t : HashTable) (acc : List (Nat × Ptr))
    (h : Models t acc) (hr : ∀ p ∈ kvs, t.hash p.1 < t.num_buckets)
    (hd : (kvs.map Prod.fst).Nodup) (hnew : ∀ k ∈ kvs.map Prod.fst, k ∉ acc.map Prod.fst) :
    ∃ t1, insertAll t kvs = some t1 ∧ Models t1 (kvs.reverse ++ acc) ∧
      t1.hash = t.hash ∧ t1.num_buckets = t.num_buckets := by
  induction kvs generalizing t acc with
  | nil => exact ⟨t, rfl, by simpa using h, rfl, rfl⟩
  | cons p rest ih =>
    obtain ⟨k, v⟩ := p
    simp only [List.map_cons, List.nodup_cons] at hd
    obtain ⟨t1, e1, m1, hh1, hn1⟩ :=
      models_insert t acc k v h (hr (k, v) (by simp)) (hnew k (by simp))
    have hr1 : ∀ q ∈ rest, t1.hash q.1 < t1.num_buckets := by
      intro q hq
      rw [hh1, hn1]
      exact hr q (List.mem_cons_of_mem _ hq)
    have hnew1 : ∀ x ∈ rest.map Prod.fst, x ∉ ((k, v) :: acc).map Prod.fst := by
      intro x hx hx2
      simp only [List.map_cons, List.mem_cons] at hx2
      rcases hx2 with rfl | hx2
      · exact hd.1 hx
      · exact hnew x (by simp only [List.map_cons, List.mem_cons]; exact Or.inr hx) hx2
    obtain ⟨t2, e2, m2, hh2, hn2⟩ := ih t1 ((k, v) :: acc) m1 hr1 hd.2 hnew1
    refine ⟨t2, ?_, ?_, hh2.trans hh1, hn2.trans hn1⟩
    · simp only [insertAll, e1, e2]
    · simpa using m2

theorem removeAll_models (rem : List (Nat × Ptr)) (t : HashTable)
    (h : Models t rem) (hr : ∀ p ∈ rem, t.hash p.1 < t.num_buckets)
    (hd : (rem.map Prod.fst).Nodup) :
    ∃ t2, removeAll t (rem.map Prod.fst) = some (rem.map Prod.snd, t2) ∧ Models t2 [] ∧
      t2.hash = t.hash ∧ t2.num_buckets = t.num_buckets := by
  induction rem generalizing t with
  | nil => exact ⟨t, rfl, h, rfl, rfl⟩
  | cons p rest ih =>
    obtain ⟨k, v⟩ := p
    simp only [List.map_cons, List.nodup_cons] at hd
    obtain ⟨t1, e1, m1, hh1, hn1⟩ := models_remove t rest k v h (hr (k, v) (by simp)) hd.1
    have hr1 : ∀ q ∈ rest, t1.hash q.1 < t1.num_buckets := by
      intro q hq
      rw [hh1, hn1]
      exact hr q (List.mem_cons_of_mem _ hq)
    obtain ⟨t2, e2, m2, hh2, hn2⟩ := ih t1 m1 hr1 hd.2
    refine ⟨t2, ?_, m2, hh2.trans hh1, hn2.trans hn1⟩
    simp only [List.map_cons, removeAll, e1, e2]

/-- Claim C8. From `createHashTable(hash, numBuckets)` with `numBuckets >= 1`: for
every list of pairs with pairwise distinct keys that hash inside the bucket array,
inserting all the pairs and then removing the keys in any order (`order` is the pairs
in the order of removal) makes every call return: the `removeItem` call for a key
returns the value inserted with it, and at the end every chain is empty, the bucket
array still has `numBuckets` slots and `getItem` returns `NULL` for every key that
hashes inside it. -/
theorem insert_all_then_remove_all (hashFunction : Nat → Nat) (numBuckets : Nat)
    (kvs order : List (Nat × Ptr)) (hn : 1 ≤ numBuckets)
    (hr : ∀ p ∈ kvs, hashFunction p.1 < numBuckets)
    (hd : (kvs.map Prod.fst).Nodup) (hp : order.Perm kvs) :
    ∃ t0 t1 t2, createHashTable hashFunction numBuckets = some t0 ∧
      insertAll t0 kvs = some t1 ∧
      removeAll t1 (order.map Prod.fst) = some (order.map Prod.snd, t2) ∧
      (∀ chain ∈ t2.buckets, chain = []) ∧ t2.buckets.length = numBuckets ∧
      ∀ k, hashFunction k < numBuckets → getItem t2 k = some NULL := by
  have e0 := createHashTable_some hashFunction numBuckets hn
  generalize HashTable.mk (List.replicate numBuckets []) hashFunction numBuckets = t0 at e0
  obtain ⟨_, ht0⟩ := createHashTable_eq _ _ _ e0
  have hh0 : t0.hash = hashFunction := by rw [ht0]
  have hn0 : t0.num_buckets = numBuckets := by rw [ht0]
  obtain ⟨t1, e1, m1, hh1, hn1⟩ := insertAll_models kvs t0 [] (models_created _ _ _ e0)
    (fun p hpm => by rw [hh0, hn0]; exact hr p hpm) hd (fun _ _ => by simp)
  have m1o : Models t1 order :=
    models_congr t1 _ order m1 (fun p => by
      rw [List.append_nil, List.mem_reverse]
      exact (hp.mem_iff).symm)
  have hdo : (order.map Prod.fst).Nodup := ((hp.map Prod.fst).nodup_iff).mpr hd
  obtain ⟨t2, e2, m2, hh2, hn2⟩ := removeAll_models order t1 m1o
    (fun p hpm => by rw [hh1, hn1, hh0, hn0]; exact hr p (hp.mem_iff.mp hpm)) hdo
  have hlen : t2.buckets.length = numBuckets := by
    have := m2.1
    unfold SlotsOk at this
    rw [this, hn2, hn1, hn0]
  refine ⟨t0, t1, t2, e0, e1, e2, models_nil_empty t2 m2, hlen, fun k hk => ?_⟩
  have hk2 : t2.hash k < t2.num_buckets := by
    rw [hh2, hh1, hh0, hn2, hn1, hn0]; exact hk
  rw [getItem_lookup t2 k m2.1 hk2]
  cases hl : lookup t2 k with
  | none => rfl
  | some w => exact absurd ((m2.2.2 k w).mp hl) (by simp)

theorem insert_all_then_remove_all_witness :
    1 ≤ 3 ∧ (∀ p ∈ [(0, 10), (1, 11), (2, 12), (3, 13)], testHash p.1 < 3) ∧
      ([(0, 10), (1, 11), (2, 12), (3, 13)].map Prod.fst).Nodup ∧
      ∃ t0 t1 t2, createHashTable testHash 3 = some t0 ∧
        insertAll t0 [(0, 10), (1, 11), (2, 12), (3, 13)] = some t1 ∧
        removeAll t1 [3, 0, 2, 1] = some ([13, 10, 12, 11], t2) ∧
        (∀ chain ∈ t2.buckets, chain = []) ∧ t2.buckets.length = 3 ∧
        ∀ k, testHash k < 3 → getItem t2 k = some NULL :=
  ⟨by decide, by decide, by decide,
    insert_all_then_remove_all testHash 3 [(0, 10), (1, 11), (2, 12), (3, 13)]
      [(3, 13), (0, 10), (2, 12), (1, 11)] (by decide) (by decide) (by decide)
      (by decide)⟩

/-! ## The scenarios of the test suite -/

/-- Claim C11, evaluated on the code. In the `FullHashTable` test the third insert
leaves the bucket array: the table has 2 slots, key 2 hashes to index 2 under
`key % 3`, and `findItem`, `insertItem` and `getItem` of key 2 all index `buckets[2]`.
The inserts of keys 0 and 1 stay inside the array. -/
theorem full_table_test_leaves_the_array (m0 m1 m2 : Ptr) :
    fullHashTableTest m0 m1 m2 = none ∧
    ∃ t0 t1 t2, createHashTable testHash 2 = some t0 ∧
      insertItem t0 0 m0 = some (NULL, t1) ∧ insertItem t1 1 m1 = some (NULL, t2) ∧
      t2.buckets.length = 2 ∧ t2.hash 2 = 2 ∧
      findItem t2 2 = none ∧ insertItem t2 2 m2 = none ∧ getItem t2 2 = none :=
  ⟨rfl, _, _, _, rfl, rfl, rfl, rfl, rfl, rfl, rfl, rfl⟩

/-- Claim C12, as the code has it. On every table whose bucket array has
`num_buckets` slots, for every key that hashes inside it and has no entry in the
table: `insertItem(t, k, NULL)` returns `NULL` and `getItem(t, k)` afterwards returns
`NULL`, the results an absent key gives, but the key is inserted: the chain of its
bucket is the new entry `(k, NULL)` followed by the old chain. -/
theorem insert_null_links_an_entry (t : HashTable) (k : Nat) (hs : SlotsOk t)
    (hk : t.hash k < t.num_buckets) (hno : ¬ HasKey t k) :
    getItem t k = some NULL ∧
    ∃ t1, insertItem t k NULL = some (NULL, t1) ∧ getItem t1 k = some NULL ∧
      t1.buckets[t.hash k]? = some ({ key := k, value := NULL } :: bucketOf t k) ∧
      HoldsEntry t1 k NULL := by
  have hl := lookup_none_of_not_hasKey t k hno
  have hb := bucket_in_range t k hs hk
  have hi := insertItem_lookup t k NULL hs hk
  rw [hl] at hi
  have hc : chainInsert k NULL (bucketOf t k) =
      { key := k, value := NULL } :: bucketOf t k := by
    unfold lookup at hl
    simp [chainInsert, hl, createHashTableEntry]
  rw [hc] at hi
  have hg : (withBucket t (t.hash k) ({ key := k, value := NULL } :: bucketOf t k)).buckets[
      t.hash k]? = some ({ key := k, value := NULL } :: bucketOf t k) := by
    rw [withBucket_get t _ _ _ _ hb]; simp
  refine ⟨?_, _, hi, ?_, hg, ?_⟩
  · rw [getItem_lookup t k hs hk, hl]; rfl
  · rw [getItem_eq _ k _ hg]
    simp [chainLookup]
  · exact ⟨_, List.mem_iff_getElem?.mpr ⟨_, hg⟩, _, List.mem_cons_self _ _, rfl, rfl⟩

theorem insert_null_links_an_entry_witness :
    SlotsOk freshTable ∧ freshTable.hash 1 < freshTable.num_buckets ∧
      ¬ HasKey freshTable 1 ∧ getItem freshTable 1 = some NULL ∧
      ∃ t1, insertItem freshTable 1 NULL = some (NULL, t1) ∧ getItem t1 1 = some NULL ∧
        t1.buckets[freshTable.hash 1]? =
          some ({ key := 1, value := NULL } :: bucketOf freshTable 1) ∧
        HoldsEntry t1 1 NULL :=
  ⟨rfl, by decide, by simp [HasKey, freshTable],
    insert_null_links_an_entry freshTable 1 rfl (by decide) (by simp [HasKey, freshTable])⟩

/-- Claim C12 as stated fails: on the freshly created three-bucket table, which has
no entry for key 1, `insertItem(t, 1, NULL)` returns `NULL` and `getItem(t, 1)` then
returns `NULL`, yet the table holds an entry for key 1 after the call. -/
theorem insert_null_is_inserted :
    createHashTable testHash 3 = some freshTable ∧ ¬ HasKey freshTable 1 ∧
      ∃ t1, insertItem freshTable 1 NULL = some (NULL, t1) ∧ getItem t1 1 = some NULL ∧
        t1.buckets = [[], [{ key := 1, value := NULL }], []] ∧ HasKey t1 1 := by
  refine ⟨rfl, by simp [HasKey, freshTable],
    { buckets := [[], [{ key := 1, value := NULL }], []], hash := testHash,
      num_buckets := 3 }, rfl, rfl, rfl, ?_⟩
  exact ⟨[{ key := 1, value := NULL }], by simp, { key := 1, value := NULL }, by simp, rfl⟩

/-! ## The two chain invariants, each on its own -/

theorem chainInsert_nodup (k : Nat) (v : Ptr) (chain : List HashTableEntry)
    (h : (chain.map HashTableEntry.key).Nodup) :
    ((chainInsert k v chain).map HashTableEntry.key).Nodup := by
  rw [chainInsert_keys]
  by_cases hl : chainLookup k chain = none
  · simp only [hl, if_true, List.nodup_cons]
    refine ⟨?_, h⟩
    intro hx
    obtain ⟨e, he, hek⟩ := List.mem_map.mp hx
    exact (chainLookup_eq_none_iff k chain).mp hl e he hek
  · simpa [hl] using h

theorem chainErase_nodup (k : Nat) (chain : List HashTableEntry)
    (h : (chain.map HashTableEntry.key).Nodup) :
    ((chainErase k chain).map HashTableEntry.key).Nodup :=
  h.sublist ((chainErase_sublist k chain).map _)

theorem chainInsert_key_mem (k : Nat) (v : Ptr) (chain : List HashTableEntry)
    (e : HashTableEntry) (he : e ∈ chainInsert k v chain) :
    e.key = k ∨ ∃ e0 ∈ chain, e0.key = e.key := by
  have hm : e.key ∈ (chainInsert k v chain).map HashTableEntry.key :=
    List.mem_map_of_mem _ he
  rw [chainInsert_keys] at hm
  by_cases hl : chainLookup k chain = none
  · simp only [hl, if_true, List.mem_cons] at hm
    rcases hm with hm | hm
    · exact Or.inl hm
    · exact Or.inr (List.mem_map.mp hm)
  · simp only [hl, if_false] at hm
    exact Or.inr (List.mem_map.mp hm)

theorem distinct_withBucket (t : HashTable) (i : Nat) (c : List HashTableEntry)
    (hd : DistinctKeys t) (hc : (c.map HashTableEntry.key).Nodup) :
    DistinctKeys (withBucket t i c) := by
  intro chain hm
  rcases List.mem_or_eq_of_mem_set hm with h | h
  · exact hd chain h
  · rw [h]; exact hc

theorem placed_withBucket (t : HashTable) (i : Nat) (c chain : List HashTableEntry)
    (hp : PlacedOk t) (hb : t.buckets[i]? = some chain)
    (hc : ∀ e ∈ c, t.hash e.key = i) : PlacedOk (withBucket t i c) := by
  intro j cj hj
  rw [withBucket_get t i j c chain hb] at hj
  by_cases hji : j = i
  · simp only [hji, if_true, Option.some.injEq] at hj
    subst hj
    subst hji
    exact hc
  · simp only [hji, if_false] at hj
    exact hp j cj hj

theorem insertItem_result (t : HashTable) (k : Nat) (v old : Ptr) (t1 : HashTable)
    (h : insertItem t k v = some (old, t1)) :
    ∃ chain, t.buckets[t.hash k]? = some chain ∧ old = (chainLookup k chain).getD NULL ∧
      t1 = withBucket t (t.hash k) (chainInsert k v chain) := by
  obtain ⟨chain, hb⟩ := insertItem_some_bucket t k v _ h
  rw [insertItem_eq t k v chain hb] at h
  simp only [Option.some.injEq, Prod.mk.injEq] at h
  exact ⟨chain, hb, h.1.symm, h.2.symm⟩

theorem removeItem_result (t : HashTable) (k : Nat) (old : Ptr) (t1 : HashTable)
    (h : removeItem t k = some (old, t1)) :
    ∃ chain, t.buckets[t.hash k]? = some chain ∧ old = (chainLookup k chain).getD NULL ∧
      t1 = withBucket t (t.hash k) (chainErase k chain) := by
  obtain ⟨chain, hb⟩ := removeItem_some_bucket t k _ h
  rw [removeItem_eq t k chain hb] at h
  simp only [Option.some.injEq, Prod.mk.injEq] at h
  exact ⟨chain, hb, h.1.symm, h.2.symm⟩

theorem deleteItem_result (t : HashTable) (k : Nat) (t1 : HashTable)
    (h : deleteItem t k = some t1) : ∃ old, removeItem t k = some (old, t1) := by
  unfold deleteItem at h
  cases hr : removeItem t k with
  | none => simp [hr] at h
  | some x =>
    obtain ⟨old, t2⟩ := x
    simp only [hr, Option.some.injEq] at h
    exact ⟨old, by rw [h]⟩

theorem distinct_created (hashFunction : Nat → Nat) (numBuckets : Nat) (t : HashTable)
    (h : createHashTable hashFunction numBuckets = some t) : DistinctKeys t := by
  obtain ⟨_, rfl⟩ := createHashTable_eq _ _ _ h
  intro chain hm
  rw [(List.mem_replicate.mp hm).2]
  simp

theorem distinct_insert (t : HashTable) (k : Nat) (v old : Ptr) (t1 : HashTable)
    (hd : DistinctKeys t) (h : insertItem t k v = some (old, t1)) : DistinctKeys t1 := by
  obtain ⟨chain, hb, _, rfl⟩ := insertItem_result t k v old t1 h
  exact distinct_withBucket t _ _ hd
    (chainInsert_nodup k v chain (hd chain (List.mem_iff_getElem?.mpr ⟨_, hb⟩)))

theorem distinct_remove (t : HashTable) (k : Nat) (old : Ptr) (t1 : HashTable)
    (hd : DistinctKeys t) (h : removeItem t k = some (old, t1)) : DistinctKeys t1 := by
  obtain ⟨chain, hb, _, rfl⟩ := removeItem_result t k old t1 h
  exact distinct_withBucket t _ _ hd
    (chainErase_nodup k chain (hd chain (List.mem_iff_getElem?.mpr ⟨_, hb⟩)))

theorem placed_created (hashFunction : Nat → Nat) (numBuckets : Nat) (t : HashTable)
    (h : createHashTable hashFunction numBuckets = some t) : PlacedOk t := by
  obtain ⟨_, rfl⟩ := createHashTable_eq _ _ _ h
  intro i chain hi e he
  have hm : chain ∈ List.replicate numBuckets ([] : List HashTableEntry) :=
    List.mem_iff_getElem?.mpr ⟨i, hi⟩
  rw [(List.mem_replicate.mp hm).2] at he
  simp at he

theorem placed_insert (t : HashTable) (k : Nat) (v old : Ptr) (t1 : HashTable)
    (hp : PlacedOk t) (h : insertItem t k v = some (old, t1)) : PlacedOk t1 := by
  obtain ⟨chain, hb, _, rfl⟩ := insertItem_result t k v old t1 h
  apply placed_withBucket t _ _ chain hp hb
  intro e he
  rcases chainInsert_key_mem k v chain e he with h1 | ⟨e0, h0, h1⟩
  · rw [h1]
  · rw [← h1]; exact hp _ chain hb e0 h0

theorem placed_remove (t : HashTable) (k : Nat) (old : Ptr) (t1 : HashTable)
    (hp : PlacedOk t) (h : removeItem t k = some (old, t1)) : PlacedOk t1 := by
  obtain ⟨chain, hb, _, rfl⟩ := removeItem_result t k old t1 h
  apply placed_withBucket t _ _ chain hp hb
  intro e he
  exact hp _ chain hb e ((chainErase_sublist k chain).subset he)

/-- Claim C13. The predicate "no chain holds two entries with the same key" holds of
the table `createHashTable` returns; `insertItem`, `removeItem` and `deleteItem`
each keep it (from any table that has it); so it holds of every table reachable from
`createHashTable` by those calls. -/
theorem distinct_keys_invariant :
    (∀ hashFunction numBuckets t,
        createHashTable hashFunction numBuckets = some t → DistinctKeys t) ∧
    (∀ t k v old t1, DistinctKeys t → insertItem t k v = some (old, t1) →
        DistinctKeys t1) ∧
    (∀ t k old t1, DistinctKeys t → removeItem t k = some (old, t1) → DistinctKeys t1) ∧
    (∀ t k t1, DistinctKeys t → deleteItem t k = some t1 → DistinctKeys t1) ∧
    (∀ t, Reachable t → DistinctKeys t) := by
  have hdel : ∀ t k t1, DistinctKeys t → deleteItem t k = some t1 → DistinctKeys t1 := by
    intro t k t1 hd h
    obtain ⟨old, hr⟩ := deleteItem_result t k t1 h
    exact distinct_remove t k old t1 hd hr
  refine ⟨distinct_created, fun t k v old t1 hd h => distinct_insert t k v old t1 hd h,
    fun t k old t1 hd h => distinct_remove t k old t1 hd h, hdel, ?_⟩
  intro t hr
  induction hr with
  | create hashFunction numBuckets t h => exact distinct_created _ _ _ h
  | insert t k v old t1 _ h ih => exact distinct_insert t k v old t1 ih h
  | remove t k old t1 _ h ih => exact distinct_remove t k old t1 ih h
  | delete t k t1 _ h ih => exact hdel t k t1 ih h

theorem distinct_keys_invariant_witness :
    Reachable sampleTable ∧ DistinctKeys sampleTable ∧
      ∃ old t1, insertItem sampleTable 6 7 = some (old, t1) ∧ DistinctKeys t1 :=
  ⟨sampleTable_reachable, distinct_keys_invariant.2.2.2.2 sampleTable sampleTable_reachable,
    _, _, rfl,
    distinct_keys_invariant.2.1 sampleTable 6 7 _ _
      (distinct_keys_invariant.2.2.2.2 sampleTable sampleTable_reachable) rfl⟩

/-- Claim C14. The predicate "every entry in the chain of bucket `i` has a key that
hashes to `i`" holds of the table `createHashTable` returns; `insertItem`,
`removeItem` and `deleteItem` each keep it (from any table that has it); so it holds
of every table reachable from `createHashTable` by those calls. -/
theorem bucket_placement_invariant :
    (∀ hashFunction numBuckets t,
        createHashTable hashFunction numBuckets = some t → PlacedOk t) ∧
    (∀ t k v old t1, PlacedOk t → insertItem t k v = some (old, t1) → PlacedOk t1) ∧
    (∀ t k old t1, PlacedOk t → removeItem t k = some (old, t1) → PlacedOk t1) ∧
    (∀ t k t1, PlacedOk t → deleteItem t k = some t1 → PlacedOk t1) ∧
    (∀ t, Reachable t → PlacedOk t) := by
  have hdel : ∀ t k t1, PlacedOk t → deleteItem t k = some t1 → PlacedOk t1 := by
    intro t k t1 hp h
    obtain ⟨old, hr⟩ := deleteItem_result t k t1 h
    exact placed_remove t k old t1 hp hr
  refine ⟨placed_created, fun t k v old t1 hp h => placed_insert t k v old t1 hp h,
    fun t k old t1 hp h => placed_remove t k old t1 hp h, hdel, ?_⟩
  intro t hr
  induction hr with
  | create hashFunction numBuckets t h => exact placed_created _ _ _ h
  | insert t k v old t1 _ h ih => exact placed_insert t k v old t1 ih h
  | remove t k old t1 _ h ih => exact placed_remove t k old t1 ih h
  | delete t k t1 _ h ih => exact hdel t k t1 ih h

theorem bucket_placement_invariant_witness :
    Reachable sampleTable ∧ PlacedOk sampleTable ∧
      ∃ old t1, insertItem sampleTable 6 7 = some (old, t1) ∧ PlacedOk t1 :=
  ⟨sampleTable_reachable,
    bucket_placement_invariant.2.2.2.2 sampleTable sampleTable_reachable,
    _, _, rfl,
    bucket_placement_invariant.2.1 sampleTable 6 7 _ _
      (bucket_placement_invariant.2.2.2.2 sampleTable sampleTable_reachable) rfl⟩

/-! ## The shape of the chain after one call -/

theorem first_match (k : Nat) (chain : List HashTableEntry) (old : Ptr)
    (h : chainLookup k chain = some old) :
    ∃ i e, chain[i]? = some e ∧ e.key = k ∧ e.value = old ∧
      (∀ j e0, j < i → chain[j]? = some e0 → e0.key ≠ k) ∧
      (∀ w, chainUpdate k w chain = chain.set i { key := k, value := w }) ∧
      chainErase k chain = chain.eraseIdx i := by
  induction chain with
  | nil => simp [chainLookup] at h
  | cons x rest ih =>
    by_cases hx : x.key = k
    · simp only [chainLookup, hx, if_true, Option.some.injEq] at h
      refine ⟨0, x, by simp, hx, h, ?_, ?_, ?_⟩
      · intro j e0 hj; omega
      · intro w; simp [chainUpdate, hx]
      · simp [chainErase, hx]
    · simp only [chainLookup, hx, if_false] at h
      obtain ⟨i, e, h1, h2, h3, h4, h5, h6⟩ := ih h
      refine ⟨i + 1, e, by simpa using h1, h2, h3, ?_, ?_, ?_⟩
      · intro j e0 hj hj0
        cases j with
        | zero =>
          simp only [List.getElem?_cons_zero, Option.some.injEq] at hj0
          rw [← hj0]; exact hx
        | succ n =>
          simp only [List.getElem?_cons_succ] at hj0
          exact h4 n e0 (by omega) hj0
      · intro w; simp [chainUpdate, hx, h5 w]
      · simp [chainErase, hx, h6]

theorem lookup_of_present (k : Nat) (chain : List HashTableEntry)
    (h : ∃ e ∈ chain, e.key = k) : ∃ old, chainLookup k chain = some old := by
  cases hl : chainLookup k chain with
  | some old => exact ⟨old, rfl⟩
  | none =>
    obtain ⟨e, he, hek⟩ := h
    exact absurd hek ((chainLookup_eq_none_iff k chain).mp hl e he)

theorem sum_length_set (l : List (List HashTableEntry)) (i : Nat)
    (c chain : List HashTableEntry) (hb : l[i]? = some chain) :
    ((l.set i c).map List.length).sum + chain.length =
      (l.map List.length).sum + c.length := by
  induction l generalizing i with
  | nil => simp at hb
  | cons x xs ih =>
    cases i with
    | zero =>
      simp only [List.getElem?_cons_zero, Option.some.injEq] at hb
      subst hb
      simp only [List.set_cons_zero, List.map_cons, List.sum_cons]
      omega
    | succ n =>
      simp only [List.getElem?_cons_succ] at hb
      have := ih n hb
      simp only [List.set_cons_succ, List.map_cons, List.sum_cons]
      omega

theorem entryCount_withBucket (t : HashTable) (i : Nat) (c chain : List HashTableEntry)
    (hb : t.buckets[i]? = some chain) :
    entryCount (withBucket t i c) + chain.length = entryCount t + c.length :=
  sum_length_set t.buckets i c chain hb

theorem withBucket_frame (t : HashTable) (i : Nat) (c chain : List HashTableEntry)
    (hb : t.buckets[i]? = some chain) :
    (withBucket t i c).buckets[i]? = some c ∧
      (∀ j, j ≠ i → (withBucket t i c).buckets[j]? = t.buckets[j]?) ∧
      (withBucket t i c).buckets.length = t.buckets.length := by
  refine ⟨?_, ?_, ?_⟩
  · rw [withBucket_get t i i c chain hb]; simp
  · intro j hj
    rw [withBucket_get t i j c chain hb]; simp [hj]
  · simp [withBucket]

/-- Claim C15. On every table whose bucket array has `num_buckets` slots and every
key that hashes inside it: when the key's bucket holds no entry of that key,
`insertItem` returns `NULL`, the chain of that bucket becomes the new entry `(k, v)`
followed by the old chain, every other bucket is unchanged and the table holds one
entry more; when the bucket holds an entry of that key, the number of entries is
unchanged. -/
theorem insert_new_key_at_head (t : HashTable) (k : Nat) (v : Ptr) (hs : SlotsOk t)
    (hk : t.hash k < t.num_buckets) :
    ((∀ e ∈ bucketOf t k, e.key ≠ k) →
      ∃ t1, insertItem t k v = some (NULL, t1) ∧
        t1.buckets[t.hash k]? = some ({ key := k, value := v } :: bucketOf t k) ∧
        (∀ j, j ≠ t.hash k → t1.buckets[j]? = t.buckets[j]?) ∧
        t1.buckets.length = t.buckets.length ∧
        entryCount t1 = entryCount t + 1) ∧
    ((∃ e ∈ bucketOf t k, e.key = k) →
      ∃ old t1, insertItem t k v = some (old, t1) ∧ entryCount t1 = entryCount t) := by
  have hb := bucket_in_range t k hs hk
  have hi := insertItem_lookup t k v hs hk
  constructor
  · intro hno
    have hl : chainLookup k (bucketOf t k) = none :=
      (chainLookup_eq_none_iff k _).mpr hno
    have hc : chainInsert k v (bucketOf t k) = { key := k, value := v } :: bucketOf t k := by
      simp [chainInsert, hl, createHashTableEntry]
    rw [hc] at hi
    unfold lookup at hi
    rw [hl] at hi
    obtain ⟨f1, f2, f3⟩ := withBucket_frame t (t.hash k)
      ({ key := k, value := v } :: bucketOf t k) _ hb
    refine ⟨_, hi, f1, f2, f3, ?_⟩
    have := entryCount_withBucket t (t.hash k) ({ key := k, value := v } :: bucketOf t k) _ hb
    simp only [List.length_cons] at this
    omega
  · intro hhas
    obtain ⟨old, hl⟩ := lookup_of_present k _ hhas
    have hc : chainInsert k v (bucketOf t k) = chainUpdate k v (bucketOf t k) := by
      simp [chainInsert, hl]
    rw [hc] at hi
    refine ⟨_, _, hi, ?_⟩
    have := entryCount_withBucket t (t.hash k) (chainUpdate k v (bucketOf t k)) _ hb
    have hlen : (chainUpdate k v (bucketOf t k)).length = (bucketOf t k).length := by
      have := congrArg List.length (chainUpdate_keys k v (bucketOf t k))
      simpa using this
    omega

theorem insert_new_key_at_head_witness :
    SlotsOk sampleTable ∧ sampleTable.hash 6 < sampleTable.num_buckets ∧
      (∀ e ∈ bucketOf sampleTable 6, e.key ≠ 6) ∧
      ∃ t1, insertItem sampleTable 6 7 = some (NULL, t1) ∧
        t1.buckets[sampleTable.hash 6]? =
          some ({ key := 6, value := 7 } :: bucketOf sampleTable 6) ∧
        (∀ j, j ≠ sampleTable.hash 6 → t1.buckets[j]? = sampleTable.buckets[j]?) ∧
        t1.buckets.length = sampleTable.buckets.length ∧
        entryCount t1 = entryCount sampleTable + 1 :=
  ⟨rfl, by decide, by decide,
    (insert_new_key_at_head sampleTable 6 7 rfl (by decide)).1 (by decide)⟩

/-- Claim C17. On every table whose bucket array has `num_buckets` slots, for every
key that hashes inside it and has an entry in its bucket: `insertItem` returns the
value of the first entry of that key in the chain and replaces the chain by the same
chain with that one entry's value set to the new value: same length, same keys at
the same positions, every other position unchanged, every other bucket unchanged. -/
theorem insert_present_key_in_place (t : HashTable) (k : Nat) (v : Ptr) (hs : SlotsOk t)
    (hk : t.hash k < t.num_buckets) (hhas : ∃ e ∈ bucketOf t k, e.key = k) :
    ∃ i e t1 chain1, (bucketOf t k)[i]? = some e ∧ e.key = k ∧
      (∀ j e0, j < i → (bucketOf t k)[j]? = some e0 → e0.key ≠ k) ∧
      insertItem t k v = some (e.value, t1) ∧
      t1.buckets[t.hash k]? = some chain1 ∧
      chain1 = (bucketOf t k).set i { key := k, value := v } ∧
      chain1.length = (bucketOf t k).length ∧
      chain1.map HashTableEntry.key = (bucketOf t k).map HashTableEntry.key ∧
      (∀ j, j ≠ i → chain1[j]? = (bucketOf t k)[j]?) ∧
      (∀ j, j ≠ t.hash k → t1.buckets[j]? = t.buckets[j]?) ∧
      t1.buckets.length = t.buckets.length := by
  have hb := bucket_in_range t k hs hk
  have hi := insertItem_lookup t k v hs hk
  obtain ⟨old, hl⟩ := lookup_of_present k _ hhas
  obtain ⟨i, e, h1, h2, h3, h4, h5, _⟩ := first_match k _ old hl
  have hc : chainInsert k v (bucketOf t k) = (bucketOf t k).set i { key := k, value := v } := by
    simp [chainInsert, hl, h5 v]
  rw [hc] at hi
  unfold lookup at hi
  rw [hl, Option.getD_some, ← h3] at hi
  obtain ⟨f1, f2, f3⟩ := withBucket_frame t (t.hash k)
    ((bucketOf t k).set i { key := k, value := v }) _ hb
  refine ⟨i, e, _, _, h1, h2, h4, hi, f1, rfl, by simp, ?_, ?_, f2, f3⟩
  · rw [← h5 v, chainUpdate_keys]
  · intro j hj
    exact List.getElem?_set_ne (Ne.symm hj)

theorem insert_present_key_in_place_witness :
    SlotsOk longChainTable ∧ longChainTable.hash 3 < longChainTable.num_buckets ∧
      (∃ e ∈ bucketOf longChainTable 3, e.key = 3) ∧
      ∃ i e t1 chain1, (bucketOf longChainTable 3)[i]? = some e ∧ e.key = 3 ∧
        (∀ j e0, j < i → (bucketOf longChainTable 3)[j]? = some e0 → e0.key ≠ 3) ∧
        insertItem longChainTable 3 7 = some (e.value, t1) ∧
        t1.buckets[longChainTable.hash 3]? = some chain1 ∧
        chain1 = (bucketOf longChainTable 3).set i { key := 3, value := 7 } ∧
        chain1.length = (bucketOf longChainTable 3).length ∧
        chain1.map HashTableEntry.key =
          (bucketOf longChainTable 3).map HashTableEntry.key ∧
        (∀ j, j ≠ i → chain1[j]? = (bucketOf longChainTable 3)[j]?) ∧
        (∀ j, j ≠ longChainTable.hash 3 → t1.buckets[j]? = longChainTable.buckets[j]?) ∧
        t1.buckets.length = longChainTable.buckets.length :=
  ⟨rfl, by decide, by decide,
    insert_present_key_in_place longChainTable 3 7 rfl (by decide) (by decide)⟩

/-- Claim C18. On every table whose bucket array has `num_buckets` slots, for every
key that hashes inside it and has an entry in its bucket: `removeItem` returns the
value of the first entry of that key in the chain and replaces the chain by the old
chain with the entry at that one position erased, wherever it is (head, middle or
tail): the other entries stay, in their order; every other bucket is unchanged. -/
theorem remove_unlinks_first_match (t : HashTable) (k : Nat) (hs : SlotsOk t)
    (hk : t.hash k < t.num_buckets) (hhas : ∃ e ∈ bucketOf t k, e.key = k) :
    ∃ i e t1, (bucketOf t k)[i]? = some e ∧ e.key = k ∧
      (∀ j e0, j < i → (bucketOf t k)[j]? = some e0 → e0.key ≠ k) ∧
      removeItem t k = some (e.value, t1) ∧
      t1.buckets[t.hash k]? = some ((bucketOf t k).eraseIdx i) ∧
      (∀ j, j ≠ t.hash k → t1.buckets[j]? = t.buckets[j]?) ∧
      t1.buckets.length = t.buckets.length := by
  have hb := bucket_in_range t k hs hk
  have hi := removeItem_lookup t k hs hk
  obtain ⟨old, hl⟩ := lookup_of_present k _ hhas
  obtain ⟨i, e, h1, h2, h3, h4, _, h6⟩ := first_match k _ old hl
  rw [h6] at hi
  unfold lookup at hi
  rw [hl, Option.getD_some, ← h3] at hi
  obtain ⟨f1, f2, f3⟩ := withBucket_frame t (t.hash k) ((bucketOf t k).eraseIdx i) _ hb
  exact ⟨i, e, _, h1, h2, h4, hi, f1, f2, f3⟩

theorem remove_unlinks_first_match_witness :
    SlotsOk longChainTable ∧ longChainTable.hash 3 < longChainTable.num_buckets ∧
      (∃ e ∈ bucketOf longChainTable 3, e.key = 3) ∧
      ∃ i e t1, (bucketOf longChainTable 3)[i]? = some e ∧ e.key = 3 ∧
        (∀ j e0, j < i → (bucketOf longChainTable 3)[j]? = some e0 → e0.key ≠ 3) ∧
        removeItem longChainTable 3 = some (e.value, t1) ∧
        t1.buckets[longChainTable.hash 3]? =
          some ((bucketOf longChainTable 3).eraseIdx i) ∧
        (∀ j, j ≠ longChainTable.hash 3 → t1.buckets[j]? = longChainTable.buckets[j]?) ∧
        t1.buckets.length = longChainTable.buckets.length :=
  ⟨rfl, by decide, by decide,
    remove_unlinks_first_match longChainTable 3 rfl (by decide) (by decide)⟩

/-! ## Sequences of calls -/

theorem deleteItem_lookup (t : HashTable) (key : Nat) (hs : SlotsOk t)
    (hk : t.hash key < t.num_buckets) :
    deleteItem t key =
      some (withBucket t (t.hash key) (chainErase key (bucketOf t key))) := by
  unfold deleteItem
  rw [removeItem_lookup t key hs hk]

theorem doCall_eq (t : HashTable) (c : Call) (hs : SlotsOk t)
    (hk : t.hash (callKey c) < t.num_buckets) :
    doCall t c =
      some (callReply c (lookup t (callKey c)),
        withBucket t (t.hash (callKey c)) (callChain c (bucketOf t (callKey c)))) := by
  cases c with
  | insert key value =>
    simp only [doCall, callKey, callChain, callReply, insertItem_lookup t key value hs hk]
  | get key =>
    simp only [callKey] at hk
    simp only [doCall, callKey, callChain, callReply, getItem_lookup t key hs hk,
      withBucket_same t _ _ (bucket_in_range t key hs hk)]
  | remove key =>
    simp only [doCall, callKey, callChain, callReply, removeItem_lookup t key hs hk]
  | delete key =>
    simp only [doCall, callKey, callChain, callReply, deleteItem_lookup t key hs hk]

theorem runCalls_keeps (P : HashTable → Prop) (ok : Call → Prop)
    (hstep : ∀ t c, SlotsOk t → (∀ k, t.hash k < t.num_buckets) → P t → ok c →
      P (withBucket t (t.hash (callKey c)) (callChain c (bucketOf t (callKey c)))))
    (calls : List Call) (t : HashTable) (hs : SlotsOk t)
    (hr : ∀ k, t.hash k < t.num_buckets) (hP : P t) (hok : ∀ c ∈ calls, ok c) :
    ∃ rs t1, runCalls t calls = some (rs, t1) ∧ SlotsOk t1 ∧ t1.hash = t.hash ∧
      t1.num_buckets = t.num_buckets ∧ P t1 := by
  induction calls generalizing t with
  | nil => exact ⟨[], t, rfl, hs, rfl, rfl, hP⟩
  | cons c rest ih =>
    have h1 := doCall_eq t c hs (hr _)
    have hs1 := withBucket_slots t (t.hash (callKey c))
      (callChain c (bucketOf t (callKey c))) hs
    have hP1 := hstep t c hs hr hP (hok c (List.mem_cons_self _ _))
    obtain ⟨rs, t2, e2, hs2, hh2, hn2, hP2⟩ := ih _ hs1 hr hP1
      (fun d hd => hok d (List.mem_cons_of_mem _ hd))
    exact ⟨callReply c (lookup t (callKey c)) :: rs, t2, by simp only [runCalls, h1, e2],
      hs2, hh2, hn2, hP2⟩

theorem runCalls_append (t t1 t2 : HashTable) (a b : List Call)
    (ra rb : List (Option Ptr)) (ha : runCalls t a = some (ra, t1))
    (hb : runCalls t1 b = some (rb, t2)) : runCalls t (a ++ b) = some (ra ++ rb, t2) := by
  induction a generalizing t ra with
  | nil =>
    simp only [runCalls, Option.some.injEq, Prod.mk.injEq] at ha
    obtain ⟨rfl, rfl⟩ := ha
    simpa using hb
  | cons c rest ih =>
    simp only [runCalls] at ha
    cases hc : doCall t c with
    | none => simp [hc] at ha
    | some x =>
      obtain ⟨r, tc⟩ := x
      simp only [hc] at ha
      cases hrest : runCalls tc rest with
      | none => simp [hrest] at ha
      | some y =>
        obtain ⟨rs, tr⟩ := y
        simp only [hrest, Option.some.injEq, Prod.mk.injEq] at ha
        obtain ⟨rfl, rfl⟩ := ha
        have := ih tc rs hrest
        show runCalls t (c :: (rest ++ b)) = _
        simp only [runCalls, hc, this, List.cons_append]

/-- Claim C19. With a bucket count of at least 1 and a hash function that maps every
key below the bucket count, every sequence of `insertItem`, `getItem`, `removeItem`
and `deleteItem` calls on the created table runs without a call leaving the bucket
array; on the table it reaches, `num_buckets` and the number of slots are still the
bucket count, the hash function is the one given, every key hashes inside the array,
and `findItem`, `insertItem`, `getItem`, `removeItem` and `deleteItem` of any key
return without leaving the array. -/
theorem bucket_accesses_in_bounds (hashFunction : Nat → Nat) (numBuckets : Nat)
    (calls : List Call) (hn : 1 ≤ numBuckets) (hr : ∀ k, hashFunction k < numBuckets) :
    ∃ t0 replies t, createHashTable hashFunction numBuckets = some t0 ∧
      runCalls t0 calls = some (replies, t) ∧
      t.num_buckets = numBuckets ∧ t.buckets.length = numBuckets ∧
      t.hash = hashFunction ∧ (∀ k, t.hash k < t.buckets.length) ∧
      ∀ k v, (∃ p, findItem t k = some p) ∧ (∃ r, insertItem t k v = some r) ∧
        (∃ r, getItem t k = some r) ∧ (∃ r, removeItem t k = some r) ∧
        (∃ t1, deleteItem t k = some t1) := by
  have e0 := createHashTable_some hashFunction numBuckets hn
  have hs0 := (created_ok _ _ _ e0).1
  obtain ⟨rs, t, e1, hs1, hh1, hn1, _⟩ :=
    runCalls_keeps (fun _ => True) (fun _ => True) (fun _ _ _ _ _ _ => trivial) calls
      _ hs0 hr trivial (fun _ _ => trivial)
  have hh : t.hash = hashFunction := hh1
  have hnb : t.num_buckets = numBuckets := hn1
  have hlen : t.buckets.length = numBuckets := by
    unfold SlotsOk at hs1; rw [hs1, hnb]
  have hin : ∀ k, t.hash k < t.num_buckets := by
    intro k; rw [hh, hnb]; exact hr k
  refine ⟨_, rs, t, e0, e1, hnb, hlen, hh, ?_, ?_⟩
  · intro k; rw [hlen, hh]; exact hr k
  · intro k v
    refine ⟨?_, ⟨_, insertItem_lookup t k v hs1 (hin k)⟩, ⟨_, getItem_lookup t k hs1 (hin k)⟩,
      ⟨_, removeItem_lookup t k hs1 (hin k)⟩, ⟨_, deleteItem_lookup t k hs1 (hin k)⟩⟩
    have hb := bucket_in_range t k hs1 (hin k)
    unfold findItem
    simp only [hb]
    cases bucketOf t k with
    | nil => exact ⟨none, rfl⟩
    | cons e rest =>
      cases hf : findLoop k (e :: rest) 0 with
      | none => exact ⟨none, by simp only [hf]⟩
      | some pos => exact ⟨some { bucket := t.hash k, pos := pos }, by simp only [hf]⟩

theorem bucket_accesses_in_bounds_witness :
    1 ≤ 3 ∧ (∀ k, testHash k < 3) ∧
      ∃ t0 replies t, createHashTable testHash 3 = some t0 ∧
        runCalls t0 [Call.insert 0 10, Call.insert 3 20, Call.get 3, Call.delete 0,
          Call.remove 3, Call.get 7] = some (replies, t) ∧
        t.num_buckets = 3 ∧ t.buckets.length = 3 ∧
        t.hash = testHash ∧ (∀ k, t.hash k < t.buckets.length) ∧
        ∀ k v, (∃ p, findItem t k = some p) ∧ (∃ r, insertItem t k v = some r) ∧
          (∃ r, getItem t k = some r) ∧ (∃ r, removeItem t k = some r) ∧
          (∃ t1, deleteItem t k = some t1) :=
  ⟨by decide, fun k => Nat.mod_lt k (by decide),
    bucket_accesses_in_bounds testHash 3 _ (by decide) (fun k => Nat.mod_lt k (by decide))⟩

/-! ## The table as a finite map -/

theorem chainsOk_after_call (t : HashTable) (c : Call) (hs : SlotsOk t) (hc : ChainsOk t)
    (hk : t.hash (callKey c) < t.num_buckets) :
    ChainsOk (withBucket t (t.hash (callKey c)) (callChain c (bucketOf t (callKey c)))) := by
  have hb := bucket_in_range t (callKey c) hs hk
  cases c with
  | insert key value => exact chainsOk_insert t key value _ hc hb
  | get key =>
    simp only [callKey] at hb
    simp only [callKey, callChain, withBucket_same t _ _ hb]
    exact hc
  | remove key => exact chainsOk_remove t key _ hc hb
  | delete key => exact chainsOk_remove t key _ hc hb

theorem lookup_after_call (t : HashTable) (c : Call) (m : AbstractMap) (hs : SlotsOk t)
    (hc : ChainsOk t) (hk : t.hash (callKey c) < t.num_buckets)
    (hm : ∀ k, lookup t k = m k) (x : Nat) :
    lookup (withBucket t (t.hash (callKey c)) (callChain c (bucketOf t (callKey c)))) x =
      (abstractCall m c).2 x := by
  cases c with
  | insert key value =>
    simp only [callKey, callChain, abstractCall, abstractSet] at hk ⊢
    by_cases hx : x = key
    · subst hx; simp [lookup_insert_self t x value hs hk]
    · simp [hx, lookup_insert_other t key x value hs hk hx, hm]
  | get key =>
    simp only [callKey] at hk
    simp only [callKey, callChain, abstractCall,
      withBucket_same t _ _ (bucket_in_range t key hs hk), hm]
  | remove key =>
    simp only [callKey, callChain, abstractCall, abstractErase] at hk ⊢
    by_cases hx : x = key
    · subst hx; simp [lookup_remove_self t x hs hc hk]
    · simp [hx, lookup_remove_other t key x hs hk hx, hm]
  | delete key =>
    simp only [callKey, callChain, abstractCall, abstractErase] at hk ⊢
    by_cases hx : x = key
    · subst hx; simp [lookup_remove_self t x hs hc hk]
    · simp [hx, lookup_remove_other t key x hs hk hx, hm]

theorem reply_after_call (t : HashTable) (c : Call) (m : AbstractMap)
    (hm : ∀ k, lookup t k = m k) :
    callReply c (lookup t (callKey c)) = (abstractCall m c).1 := by
  cases c <;> simp [callReply, callKey, abstractCall, hm]

theorem runCalls_refines (calls : List Call) (t : HashTable) (m : AbstractMap)
    (hs : SlotsOk t) (hc : ChainsOk t) (hr : ∀ k, t.hash k < t.num_buckets)
    (hm : ∀ k, lookup t k = m k) :
    ∃ t1, runCalls t calls = some (abstractRun m calls, t1) := by
  induction calls generalizing t m with
  | nil => exact ⟨t, rfl⟩
  | cons c rest ih =>
    have h1 := doCall_eq t c hs (hr _)
    obtain ⟨t2, e2⟩ := ih _ (abstractCall m c).2
      (withBucket_slots t _ _ hs) (chainsOk_after_call t c hs hc (hr _)) hr
      (lookup_after_call t c m hs hc (hr _) hm)
    exact ⟨t2, by simp only [runCalls, h1, e2, abstractRun, reply_after_call t c m hm]⟩

/-- Claim C20. With a bucket count of at least 1 and a hash function that maps every
key below the bucket count, every sequence of `insertItem`, `getItem` and
`removeItem` calls (and `deleteItem` calls) on the created table runs, and each call
returns what the same operation returns on the abstract map started empty. So for
any second bucket count and in-range hash function the calls return the same. -/
theorem table_refines_abstract_map (hashFunction : Nat → Nat) (numBuckets : Nat)
    (calls : List Call) (hn : 1 ≤ numBuckets) (hr : ∀ k, hashFunction k < numBuckets) :
    (∃ t0 t, createHashTable hashFunction numBuckets = some t0 ∧
      runCalls t0 calls = some (abstractRun emptyMap calls, t)) ∧
    (∀ hash2 n2, 1 ≤ n2 → (∀ k, hash2 k < n2) →
      ∃ t0 t s0 s replies, createHashTable hashFunction numBuckets = some t0 ∧
        createHashTable hash2 n2 = some s0 ∧
        runCalls t0 calls = some (replies, t) ∧ runCalls s0 calls = some (replies, s)) := by
  have key : ∀ h n, 1 ≤ n → (∀ k, h k < n) →
      ∃ t0 t, createHashTable h n = some t0 ∧
        runCalls t0 calls = some (abstractRun emptyMap calls, t) := by
    intro h n hn1 hr1
    have e0 := createHashTable_some h n hn1
    obtain ⟨hs0, hc0⟩ := created_ok _ _ _ e0
    obtain ⟨t, e1⟩ := runCalls_refines calls _ emptyMap hs0 hc0 hr1
      (fun k => lookup_created _ _ _ e0 k)
    exact ⟨_, t, e0, e1⟩
  refine ⟨key hashFunction numBuckets hn hr, ?_⟩
  intro hash2 n2 hn2 hr2
  obtain ⟨t0, t, e0, e1⟩ := key hashFunction numBuckets hn hr
  obtain ⟨s0, s, f0, f1⟩ := key hash2 n2 hn2 hr2
  exact ⟨t0, t, s0, s, _, e0, f0, e1, f1⟩

theorem table_refines_abstract_map_witness :
    1 ≤ 3 ∧ (∀ k, testHash k < 3) ∧
      ∃ t0 t, createHashTable testHash 3 = some t0 ∧
        runCalls t0 [Call.insert 0 10, Call.insert 3 20, Call.insert 0 11, Call.get 3,
          Call.remove 0, Call.get 0, Call.remove 5] =
          some ([some 0, some 0, some 10, some 20, some 11, some 0, some 0], t) := by
  obtain ⟨t0, t, h0, h1⟩ :=
    (table_refines_abstract_map testHash 3
      [Call.insert 0 10, Call.insert 3 20, Call.insert 0 11, Call.get 3,
        Call.remove 0, Call.get 0, Call.remove 5]
      (by decide) (fun k => Nat.mod_lt k (by decide))).1
  exact ⟨by decide, fun k => Nat.mod_lt k (by decide), t0, t, h0, h1⟩

/-! ## The order of a chain -/

theorem chainErase_keys (k : Nat) (chain : List HashTableEntry) :
    (chainErase k chain).map HashTableEntry.key =
      (chain.map HashTableEntry.key).erase k := by
  induction chain with
  | nil => rfl
  | cons x rest ih =>
    by_cases hx : x.key = k
    · simp [chainErase, hx]
    · simp [chainErase, hx, List.erase_cons, ih]

theorem callChain_keeps_sublist (c : Call) (chain : List HashTableEntry) (l : List Nat)
    (hl : List.Sublist l (chain.map HashTableEntry.key))
    (hrem : ∀ k ∈ l, c ≠ Call.remove k ∧ c ≠ Call.delete k) :
    List.Sublist l ((callChain c chain).map HashTableEntry.key) := by
  cases c with
  | insert key value =>
    simp only [callChain, chainInsert_keys]
    by_cases h : chainLookup key chain = none
    · simp only [h, if_true]; exact hl.cons _
    · simp only [h, if_false]; exact hl
  | get key => exact hl
  | remove key =>
    simp only [callChain, chainErase_keys]
    have hnot : key ∉ l := fun hm => (hrem key hm).1 rfl
    have := hl.erase key
    rwa [List.erase_of_not_mem hnot] at this
  | delete key =>
    simp only [callChain, chainErase_keys]
    have hnot : key ∉ l := fun hm => (hrem key hm).2 rfl
    have := hl.erase key
    rwa [List.erase_of_not_mem hnot] at this

theorem bucketOf_after_call (t : HashTable) (c : Call) (hs : SlotsOk t)
    (hk : t.hash (callKey c) < t.num_buckets) (x : Nat) :
    bucketOf (withBucket t (t.hash (callKey c)) (callChain c (bucketOf t (callKey c)))) x =
      if t.hash x = t.hash (callKey c) then callChain c (bucketOf t x) else bucketOf t x := by
  rw [bucketOf_withBucket t _ _ _ (bucket_in_range t _ hs hk)]
  by_cases h : t.hash x = t.hash (callKey c)
  · simp only [h, if_true]
    congr 1
    simp [bucketOf, h]
  · simp [h]

theorem before_after_call (k2 k1 : Nat) (t : HashTable) (c : Call) (hs : SlotsOk t)
    (hr : ∀ k, t.hash k < t.num_buckets) (hb : Before k2 k1 t)
    (hrem : c ≠ Call.remove k1 ∧ c ≠ Call.delete k1 ∧ c ≠ Call.remove k2 ∧
      c ≠ Call.delete k2) :
    Before k2 k1
      (withBucket t (t.hash (callKey c)) (callChain c (bucketOf t (callKey c)))) := by
  unfold Before at *
  rw [bucketOf_after_call t c hs (hr _) k1]
  by_cases h : t.hash k1 = t.hash (callKey c)
  · simp only [h, if_true]
    apply callChain_keeps_sublist c _ _ hb
    intro k hkm
    simp only [List.mem_cons, List.mem_singleton, List.not_mem_nil, or_false] at hkm
    rcases hkm with rfl | rfl
    · exact ⟨hrem.2.2.1, hrem.2.2.2⟩
    · exact ⟨hrem.1, hrem.2.1⟩
  · simp only [h, if_false]; exact hb

theorem lookup_other_after_call (t : HashTable) (c : Call) (hs : SlotsOk t)
    (hk : t.hash (callKey c) < t.num_buckets) (x : Nat) (hx : x ≠ callKey c) :
    lookup (withBucket t (t.hash (callKey c)) (callChain c (bucketOf t (callKey c)))) x =
      lookup t x := by
  cases c with
  | insert key value => exact lookup_insert_other t key x value hs hk hx
  | get key =>
    simp only [callKey] at hk
    simp only [callKey, callChain, withBucket_same t _ _ (bucket_in_range t key hs hk)]
  | remove key => exact lookup_remove_other t key x hs hk hx
  | delete key => exact lookup_remove_other t key x hs hk hx

theorem absent_after_call (k2 : Nat) (t : HashTable) (c : Call) (hs : SlotsOk t)
    (hr : ∀ k, t.hash k < t.num_buckets) (ha : lookup t k2 = none)
    (hins : ∀ v, c ≠ Call.insert k2 v) :
    lookup (withBucket t (t.hash (callKey c)) (callChain c (bucketOf t (callKey c)))) k2 =
      none := by
  by_cases hx : k2 = callKey c
  · have hb := bucket_in_range t (callKey c) hs (hr _)
    cases c with
    | insert key value =>
      simp only [callKey] at hx
      exact absurd (by rw [hx]) (hins value)
    | get key =>
      simp only [callKey] at hb
      simp only [callKey, callChain, withBucket_same t _ _ hb]
      exact ha
    | remove key =>
      simp only [callKey] at hx hb
      subst hx
      simp only [callKey, callChain]
      unfold lookup at ha
      rw [chainErase_of_lookup_none k2 _ ha, withBucket_same t _ _ hb]
      exact ha
    | delete key =>
      simp only [callKey] at hx hb
      subst hx
      simp only [callKey, callChain]
      unfold lookup at ha
      rw [chainErase_of_lookup_none k2 _ ha, withBucket_same t _ _ hb]
      exact ha
  · rw [lookup_other_after_call t c hs (hr _) k2 hx]; exact ha

theorem present_after_call (k1 : Nat) (t : HashTable) (c : Call) (hs : SlotsOk t)
    (hr : ∀ k, t.hash k < t.num_buckets) (hp : ∃ w, lookup t k1 = some w)
    (hrem : c ≠ Call.remove k1 ∧ c ≠ Call.delete k1) :
    ∃ w, lookup
      (withBucket t (t.hash (callKey c)) (callChain c (bucketOf t (callKey c)))) k1 =
        some w := by
  by_cases hx : k1 = callKey c
  · have hb := bucket_in_range t (callKey c) hs (hr _)
    cases c with
    | insert key value =>
      simp only [callKey] at hx
      subst hx
      exact ⟨value, lookup_insert_self t k1 value hs (hr _)⟩
    | get key =>
      simp only [callKey] at hb
      simp only [callKey, callChain, withBucket_same t _ _ hb]
      exact hp
    | remove key =>
      simp only [callKey] at hx
      exact absurd (by rw [hx]) hrem.1
    | delete key =>
      simp only [callKey] at hx
      exact absurd (by rw [hx]) hrem.2
  · rw [lookup_other_after_call t c hs (hr _) k1 hx]; exact hp

theorem sublist_pair_positions (chain : List HashTableEntry) (a b : Nat)
    (h : List.Sublist [a, b] (chain.map HashTableEntry.key)) :
    ∃ (i j : Nat) (ea eb : HashTableEntry), i < j ∧ chain[i]? = some ea ∧
      chain[j]? = some eb ∧ ea.key = a ∧ eb.key = b := by
  induction chain with
  | nil => simp at h
  | cons x rest ih =>
    rw [List.map_cons, List.sublist_cons_iff] at h
    rcases h with h | ⟨r, hr, hsub⟩
    · obtain ⟨i, j, ea, eb, hij, h1, h2, h3, h4⟩ := ih h
      exact ⟨i + 1, j + 1, ea, eb, by omega, by simpa using h1, by simpa using h2, h3, h4⟩
    · simp only [List.cons.injEq] at hr
      obtain ⟨hxa, rfl⟩ := hr
      have hm : b ∈ rest.map HashTableEntry.key := List.singleton_sublist.mp hsub
      obtain ⟨eb, hme, hkb⟩ := List.mem_map.mp hm
      obtain ⟨j, hj⟩ := List.mem_iff_getElem?.mp hme
      exact ⟨0, j + 1, x, eb, by omega, by simp, by simpa using hj, hxa.symm, hkb⟩

theorem runCalls_cons (t t1 t2 : HashTable) (c : Call) (rest : List Call)
    (r : Option Ptr) (rs : List (Option Ptr)) (hc : doCall t c = some (r, t1))
    (hrest : runCalls t1 rest = some (rs, t2)) :
    runCalls t (c :: rest) = some (r :: rs, t2) := by
  simp only [runCalls, hc, hrest]

/-- Claim C16. From `createHashTable` with a bucket count of at least 1 and an
in-range hash function, for every sequence of calls
`p1 ++ insert k1 v1 :: p2 ++ insert k2 v2 :: post` in which `k2` is not inserted
before the marked insertion (so `k1` is inserted before the first insertion of
`k2`), `k1` is not removed or deleted after its marked insertion, `k2` is not
removed or deleted after its own, and both keys hash to the same bucket: the sequence
runs, and in the chain of that bucket at the end an entry of key `k2` stands at an
earlier position than an entry of key `k1`. Removal calls for a key that come before
its insertion remove nothing and are allowed. -/
theorem chain_order_reverse_insertion (hashFunction : Nat → Nat) (numBuckets : Nat)
    (p1 p2 post : List Call) (k1 k2 : Nat) (v1 v2 : Ptr) (hn : 1 ≤ numBuckets)
    (hr : ∀ k, hashFunction k < numBuckets) (hb : hashFunction k1 = hashFunction k2)
    (hne : k1 ≠ k2)
    (h2 : ∀ c ∈ p1 ++ p2, ∀ v, c ≠ Call.insert k2 v)
    (hk1 : ∀ c ∈ p2 ++ post, c ≠ Call.remove k1 ∧ c ≠ Call.delete k1)
    (hk2 : ∀ c ∈ post, c ≠ Call.remove k2 ∧ c ≠ Call.delete k2) :
    ∃ t0 replies t chain, createHashTable hashFunction numBuckets = some t0 ∧
      runCalls t0 ((p1 ++ Call.insert k1 v1 :: p2) ++ Call.insert k2 v2 :: post) =
        some (replies, t) ∧
      t.buckets[hashFunction k1]? = some chain ∧
      ∃ (i j : Nat) (e2 e1 : HashTableEntry), i < j ∧ chain[i]? = some e2 ∧
        chain[j]? = some e1 ∧ e2.key = k2 ∧ e1.key = k1 := by
  have e0 := createHashTable_some hashFunction numBuckets hn
  have hs0 := (created_ok _ _ _ e0).1
  have hl0 := lookup_created _ _ _ e0 k2
  generalize HashTable.mk (List.replicate numBuckets []) hashFunction numBuckets = t0
    at e0 hs0 hl0
  obtain ⟨_, ht0⟩ := createHashTable_eq _ _ _ e0
  have hh0 : t0.hash = hashFunction := by rw [ht0]
  have hn0 : t0.num_buckets = numBuckets := by rw [ht0]
  have hr0 : ∀ k, t0.hash k < t0.num_buckets := by
    intro k; rw [hh0, hn0]; exact hr k
  -- the calls before the insertion of `k1`: `k2` stays absent
  obtain ⟨ra, ta, ea, hsa, hha, hna, hPa⟩ :=
    runCalls_keeps (fun t => lookup t k2 = none) (fun c => ∀ v, c ≠ Call.insert k2 v)
      (fun t c hs hrt hP hok => absent_after_call k2 t c hs hrt hP hok) p1 t0 hs0 hr0 hl0
      (fun c hc => h2 c (List.mem_append_left _ hc))
  have hra : ∀ k, ta.hash k < ta.num_buckets := by
    intro k; rw [hha, hna]; exact hr0 k
  -- the insertion of `k1`
  have eb := doCall_eq ta (Call.insert k1 v1) hsa (hra _)
  have hsb := withBucket_slots ta (ta.hash (callKey (Call.insert k1 v1)))
    (callChain (Call.insert k1 v1) (bucketOf ta (callKey (Call.insert k1 v1)))) hsa
  have hPb1 := absent_after_call k2 ta (Call.insert k1 v1) hsa hra hPa
    (fun v hv => hne (by injection hv))
  have hPb2 : ∃ w, lookup (withBucket ta (ta.hash (callKey (Call.insert k1 v1)))
      (callChain (Call.insert k1 v1) (bucketOf ta (callKey (Call.insert k1 v1))))) k1 =
        some w :=
    ⟨v1, lookup_insert_self ta k1 v1 hsa (hra _)⟩
  have hhb : (withBucket ta (ta.hash (callKey (Call.insert k1 v1)))
      (callChain (Call.insert k1 v1) (bucketOf ta (callKey (Call.insert k1 v1))))).hash =
        ta.hash ∧
      (withBucket ta (ta.hash (callKey (Call.insert k1 v1)))
      (callChain (Call.insert k1 v1) (bucketOf ta (callKey (Call.insert k1 v1))))).num_buckets =
        ta.num_buckets := ⟨rfl, rfl⟩
  generalize withBucket ta (ta.hash (callKey (Call.insert k1 v1)))
    (callChain (Call.insert k1 v1) (bucketOf ta (callKey (Call.insert k1 v1)))) = tb
    at eb hsb hPb1 hPb2 hhb
  have hrb : ∀ k, tb.hash k < tb.num_buckets := by
    intro k; rw [hhb.1, hhb.2]; exact hra k
  -- the calls between the two insertions: `k2` stays absent, `k1` stays present
  obtain ⟨rc, tc, ec, hsc, hhc, hnc, hPc⟩ :=
    runCalls_keeps (fun t => lookup t k2 = none ∧ ∃ w, lookup t k1 = some w)
      (fun c => (∀ v, c ≠ Call.insert k2 v) ∧ c ≠ Call.remove k1 ∧ c ≠ Call.delete k1)
      (fun t c hs hrt hP hok =>
        ⟨absent_after_call k2 t c hs hrt hP.1 hok.1,
          present_after_call k1 t c hs hrt hP.2 hok.2⟩)
      p2 tb hsb hrb ⟨hPb1, hPb2⟩
      (fun c hc => ⟨h2 c (List.mem_append_right _ hc),
        hk1 c (List.mem_append_left _ hc)⟩)
  have hrc : ∀ k, tc.hash k < tc.num_buckets := by
    intro k; rw [hhc, hnc]; exact hrb k
  have hhashc : tc.hash = hashFunction := by rw [hhc, hhb.1, hha, hh0]
  -- the insertion of `k2`: it is linked in front of the chain that holds `k1`
  have ed := doCall_eq tc (Call.insert k2 v2) hsc (hrc _)
  have hsd := withBucket_slots tc (tc.hash (callKey (Call.insert k2 v2)))
    (callChain (Call.insert k2 v2) (bucketOf tc (callKey (Call.insert k2 v2)))) hsc
  have hPd : Before k2 k1 (withBucket tc (tc.hash (callKey (Call.insert k2 v2)))
      (callChain (Call.insert k2 v2) (bucketOf tc (callKey (Call.insert k2 v2))))) := by
    unfold Before
    rw [bucketOf_after_call tc (Call.insert k2 v2) hsc (hrc _) k1]
    have hsame : tc.hash k1 = tc.hash k2 := by rw [hhashc]; exact hb
    have hbk : bucketOf tc k1 = bucketOf tc k2 := by simp [bucketOf, hsame]
    obtain ⟨w, hw⟩ := hPc.2
    have hnone : chainLookup k2 (bucketOf tc k1) = none := by
      rw [hbk]; exact hPc.1
    obtain ⟨e, he, hek, _⟩ := chainLookup_some_mem k1 (bucketOf tc k1) w hw
    simp only [callKey, hsame, if_true, callChain, chainInsert, hnone, List.map_cons,
      createHashTableEntry]
    apply List.Sublist.cons₂
    apply List.singleton_sublist.mpr
    exact List.mem_map.mpr ⟨e, he, hek⟩
  have hhd : ∀ k, (withBucket tc (tc.hash (callKey (Call.insert k2 v2)))
      (callChain (Call.insert k2 v2) (bucketOf tc (callKey (Call.insert k2 v2))))).hash k <
      (withBucket tc (tc.hash (callKey (Call.insert k2 v2)))
      (callChain (Call.insert k2 v2) (bucketOf tc (callKey (Call.insert k2 v2))))).num_buckets :=
    hrc
  -- the calls after it keep the order
  obtain ⟨re, t, ee, hse, hhe, hne2, hPe⟩ :=
    runCalls_keeps (Before k2 k1)
      (fun c => c ≠ Call.remove k1 ∧ c ≠ Call.delete k1 ∧ c ≠ Call.remove k2 ∧
        c ≠ Call.delete k2)
      (fun t c hs hrt hP hok => before_after_call k2 k1 t c hs hrt hP hok)
      post _ hsd hhd hPd
      (fun c hc => ⟨(hk1 c (List.mem_append_right _ hc)).1,
        (hk1 c (List.mem_append_right _ hc)).2, (hk2 c hc).1, (hk2 c hc).2⟩)
  have hhash : t.hash = hashFunction := by rw [hhe]; exact hhashc
  have hnum : t.num_buckets = numBuckets := by
    rw [hne2]
    show tc.num_buckets = numBuckets
    rw [hnc, hhb.2, hna, hn0]
  have hrun : runCalls t0 ((p1 ++ Call.insert k1 v1 :: p2) ++ Call.insert k2 v2 :: post) =
      some ((ra ++ _ :: rc) ++ _ :: re, t) :=
    runCalls_append t0 tc t _ _ _ _
      (runCalls_append t0 ta tc _ _ _ _ ea (runCalls_cons ta tb tc _ _ _ _ eb ec))
      (runCalls_cons tc _ t _ _ _ _ ed ee)
  have hin : t.hash k1 < t.num_buckets := by rw [hhash, hnum]; exact hr k1
  have hbucket := bucket_in_range t k1 hse hin
  rw [hhash] at hbucket
  exact ⟨t0, _, t, bucketOf t k1, e0, hrun, hbucket, sublist_pair_positions _ k2 k1 hPe⟩

theorem chain_order_reverse_insertion_witness :
    testHash 0 = testHash 3 ∧ 0 ≠ 3 ∧
      ∃ t0 replies t chain, createHashTable testHash 3 = some t0 ∧
        runCalls t0 (([Call.remove 0, Call.insert 1 5] ++
          Call.insert 0 10 :: [Call.remove 3, Call.remove 1]) ++
          Call.insert 3 20 :: [Call.insert 6 30, Call.insert 0 11, Call.remove 6]) =
            some (replies, t) ∧
        t.buckets[testHash 0]? = some chain ∧
        ∃ (i j : Nat) (e2 e1 : HashTableEntry), i < j ∧ chain[i]? = some e2 ∧
          chain[j]? = some e1 ∧ e2.key = 3 ∧ e1.key = 0 :=
  ⟨by decide, by decide,
    chain_order_reverse_insertion testHash 3 [Call.remove 0, Call.insert 1 5]
      [Call.remove 3, Call.remove 1]
      [Call.insert 6 30, Call.insert 0 11, Call.remove 6] 0 3 10 20 (by decide)
      (fun k => Nat.mod_lt k (by decide)) (by decide) (by decide)
      (by simp) (by decide) (by decide)⟩

/-! ## Insert, then remove -/

theorem withBucket_twice (t : HashTable) (i : Nat) (c1 c2 : List HashTableEntry) :
    withBucket (withBucket t i c1) i c2 = withBucket t i c2 := by
  unfold withBucket
  simp only [List.set_set]

/-- Claim C21. On every table whose bucket array has `num_buckets` slots, for every
key that hashes inside it and has no entry in the table, and every value:
`insertItem(t, k, v)` returns `NULL`, and `removeItem` of the key on the table it
leaves returns `v` and leaves the table `t` itself: every chain as it was, entry
order included. -/
theorem insert_then_remove_restores (t : HashTable) (k : Nat) (v : Ptr) (hs : SlotsOk t)
    (hk : t.hash k < t.num_buckets) (hno : ¬ HasKey t k) :
    ∃ t1, insertItem t k v = some (NULL, t1) ∧ removeItem t1 k = some (v, t) := by
  have hl := lookup_none_of_not_hasKey t k hno
  have hb := bucket_in_range t k hs hk
  have hi := insertItem_lookup t k v hs hk
  rw [hl] at hi
  have hc : chainInsert k v (bucketOf t k) = { key := k, value := v } :: bucketOf t k := by
    unfold lookup at hl
    simp [chainInsert, hl, createHashTableEntry]
  rw [hc] at hi
  have hg : (withBucket t (t.hash k) ({ key := k, value := v } :: bucketOf t k)).buckets[
      (withBucket t (t.hash k) ({ key := k, value := v } :: bucketOf t k)).hash k]? =
        some ({ key := k, value := v } :: bucketOf t k) :=
    (withBucket_frame t (t.hash k) _ _ hb).1
  refine ⟨_, hi, ?_⟩
  rw [removeItem_eq _ k _ hg]
  have h1 : chainLookup k ({ key := k, value := v } :: bucketOf t k) = some v := by
    simp [chainLookup]
  have h2 : chainErase k ({ key := k, value := v } :: bucketOf t k) = bucketOf t k := by
    simp [chainErase]
  rw [h1, h2]
  show some (v, withBucket (withBucket t (t.hash k) _) (t.hash k) (bucketOf t k)) = _
  rw [withBucket_twice, withBucket_same t _ _ hb]

theorem insert_then_remove_restores_witness :
    SlotsOk longChainTable ∧ longChainTable.hash 9 < longChainTable.num_buckets ∧
      ¬ HasKey longChainTable 9 ∧
      ∃ t1, insertItem longChainTable 9 7 = some (NULL, t1) ∧
        removeItem t1 9 = some (7, longChainTable) :=
  ⟨rfl, by decide, by simp [HasKey, longChainTable],
    insert_then_remove_restores longChainTable 9 7 rfl (by decide)
      (by simp [HasKey, longChainTable])⟩

end HashTableModel
